import Mathlib

/-!
Verification of the Pyretic policy language core (pyretic/core/language.py)
and the path-query token generator (pyretic/lib/path.py).

The policy algebra, single-packet evaluation, match intersection, the
classifier negation step, the CountBucket accounting protocol, the dynamic
policy cache mechanism and the CharacterGenerator disjoint-filter invariant
are embedded below and their documented properties proved.
-/

namespace Pyretic

/-- Field values carried by packets: generic scalars (ports, switches, macs,
tags encoded as naturals) and concrete IPv4 addresses. -/
inductive Val where
  | num (n : Nat)
  | ipv4 (a : Nat)
deriving DecidableEq, Repr

/-- An IPv4 CIDR prefix, as wrapped by ipaddr.IPv4Network: a (possibly
unmasked) base address together with a prefix length. All range computations
mask the base address, as IPv4Network does. -/
structure Cidr where
  addr : Nat
  plen : Nat
deriving DecidableEq, Repr

/-- The first address of the prefix (IPv4Network.network): the base address
with the host bits cleared. -/
def Cidr.network (c : Cidr) : Nat :=
  c.addr - c.addr % 2 ^ (32 - c.plen)

/-- The last address of the prefix (IPv4Network.broadcast). -/
def Cidr.broadcast (c : Cidr) : Nat :=
  c.network + (2 ^ (32 - c.plen) - 1)

/-- Modelled from the spec: ipaddr.IPv4Network.__contains__ on an address
(pyretic matches CIDR fields by containment, spec section 4.1); an address is
in the prefix iff it lies between network and broadcast. -/
def Cidr.containsAddr (c : Cidr) (a : Nat) : Bool :=
  decide (c.network ≤ a ∧ a ≤ c.broadcast)

/-- Modelled from the spec: ipaddr.IPv4Network.__contains__ on another
network; inner is contained in outer iff its whole range is
(match.intersect uses IPv4Network(x) in IPv4Network(y) this way). -/
def Cidr.containsNet (outer inner : Cidr) : Bool :=
  decide (outer.network ≤ inner.network ∧ inner.broadcast ≤ outer.broadcast)

/-- A field pattern in a match map: Python None (the field must be absent),
an exact value, or an IPv4 CIDR prefix (used for srcip / dstip). -/
inductive Pat where
  | none
  | val (v : Val)
  | cidr (c : Cidr)
deriving DecidableEq, Repr

/-- A match map: finite mapping field name to pattern (util.frozendict).
Represented as an association list with distinct keys. -/
abbrev MatchMap := List (String × Pat)

/-- A modify map: field name to new value, where Python None clears the
field (used e.g. by modify with path_tag = None). -/
abbrev ModMap := List (String × Option Val)

/-- A packet: finite mapping from header field names to values. The concrete
Packet class is an external collaborator; the core only reads fields,
bulk-modifies fields and compares packets for equality. -/
structure Packet where
  fields : List (String × Val)
deriving DecidableEq, Repr

/-- Field read, pkt[field]: first binding of the field, if any. -/
def Packet.get (pkt : Packet) (f : String) : Option Val :=
  (pkt.fields.find? (fun kv => kv.1 = f)).map (·.2)

/-- Replace the value of a field, or append a fresh binding. -/
def Packet.setField (pkt : Packet) (f : String) (v : Val) : Packet :=
  if (pkt.fields.find? (fun kv => kv.1 = f)).isSome then
    ⟨pkt.fields.map (fun kv => if kv.1 = f then (f, v) else kv)⟩
  else
    ⟨pkt.fields ++ [(f, v)]⟩

/-- Remove all bindings of a field. -/
def Packet.delField (pkt : Packet) (f : String) : Packet :=
  ⟨pkt.fields.filter (fun kv => ¬ kv.1 = f)⟩

/-- Packet.modifymany: bulk field modification; a None value clears the
field (the packet representation is an external collaborator, spec
section 3: bulk field modify). -/
def Packet.modifymany (pkt : Packet) (m : ModMap) : Packet :=
  m.foldl (fun p kv =>
    match kv.2 with
    | Option.some v => p.setField kv.1 v
    | Option.none => p.delField kv.1) pkt

/-- Whether one field binding of a match map accepts the packet, following
the loop body of _match.eval (language.py lines 410-419): a None pattern
passes exactly when the field is absent; a present field passes when the
pattern equals the value, where equality of an IPPrefix pattern with an
address is CIDR containment (Modelled from the spec: the IPPrefix value
class lives in pyretic/core/network.py, not in src; spec sections 3 and
4.1 state CIDR fields compare by containment). -/
def fieldPass (pkt : Packet) : String × Pat → Bool
  | (f, Pat.none) => (pkt.get f).isNone
  | (f, Pat.val v) =>
      match pkt.get f with
      | Option.some w => v == w
      | Option.none => false
  | (f, Pat.cidr c) =>
      match pkt.get f with
      | Option.some (Val.ipv4 a) => c.containsAddr a
      | Option.some (Val.num _) => false
      | Option.none => false

/-- The _match.eval loop: the packet matches iff every field binding
passes. -/
def matchesMap (m : MatchMap) (pkt : Packet) : Bool :=
  m.all (fieldPass pkt)

/-- The policy AST of pyretic/core/language.py. union and intersection are
subclasses of parallel and sequential with the same eval, and difference
stores the composed policy negate f2 and-then f1, so all three are
represented by the combinators they reduce to (defs below). Query leaves
(FwdBucket, PathBucket, CountBucket) all inherit Query.eval and are
represented by a bucket identifier. Match maps are kept in translated form
(virtual-field translation is the identity on compilable headers, spec
section 4.8). -/
inductive Pol where
  | identity
  | drop
  | controller
  | matchP (m : MatchMap)
  | modifyP (m : ModMap)
  | negate (p : Pol)
  | parallelP (ps : List Pol)
  | sequentialP (ps : List Pol)
  | query (qid : Nat)

/-- Python equality test policy == identity: true for the identity
singleton and for a match with an empty map (match.__eq__ and
identity.__eq__, language.py lines 238-240 and 320-322). -/
def isIdEq : Pol → Bool
  | Pol.identity => true
  | Pol.matchP m => m.isEmpty
  | _ => false

/-- Python equality test policy == drop: only the drop singleton
(drop.__eq__ is identity-based). -/
def isDropEq : Pol → Bool
  | Pol.drop => true
  | _ => false

mutual

/-- Single-packet evaluation J(p)(pkt), following each eval method of
language.py. Filters return subsets of the singleton input; modify rewrites;
Controller and Query leaves produce the empty packet set in-process. -/
def eval : Pol → Packet → Finset Packet
  | Pol.identity, pkt => {pkt}
  | Pol.drop, _ => ∅
  | Pol.controller, _ => ∅
  | Pol.matchP m, pkt => if matchesMap m pkt then {pkt} else ∅
  | Pol.modifyP m, pkt => {pkt.modifymany m}
  | Pol.negate p, pkt => if eval p pkt = ∅ then {pkt} else ∅
  | Pol.parallelP ps, pkt => evalPar ps pkt
  | Pol.sequentialP ps, pkt => evalSeq ps {pkt}
  | Pol.query _, _ => ∅

/-- parallel.eval: set union of the member evaluations. -/
def evalPar : List Pol → Packet → Finset Packet
  | [], _ => ∅
  | p :: ps, pkt => eval p pkt ∪ evalPar ps pkt

/-- The loop of sequential.eval (language.py lines 1144-1168): early return
on an empty intermediate set, skip policies equal to identity, short-circuit
policies equal to drop, otherwise bind. -/
def evalSeq : List Pol → Finset Packet → Finset Packet
  | [], prev => prev
  | p :: ps, prev =>
      if prev = ∅ then ∅
      else if isIdEq p then evalSeq ps prev
      else if isDropEq p then ∅
      else evalSeq ps (prev.biUnion (fun x => eval p x))

end

/-- The member list a policy contributes to a sequential composition: a
sequential is flattened into its members, anything else is a singleton. -/
def seqList : Pol → List Pol
  | Pol.sequentialP ps => ps
  | p => [p]

/-- Policy.__rshift__ and sequential.__rshift__: the sequential composition
operator, flattening nested sequentials on either side. -/
def rshift (p q : Pol) : Pol :=
  Pol.sequentialP (seqList p ++ seqList q)

/-- union of filters is a parallel with the same eval (union subclasses
parallel and adds no eval). -/
def unionF (fs : List Pol) : Pol := Pol.parallelP fs

/-- intersection of filters is a sequential with the same eval. -/
def intersectionF (fs : List Pol) : Pol := Pol.sequentialP fs

/-- difference f1 f2 delegates evaluation to (negate f2) and-then f1
(difference.__init__ composes not f2 and f1; DerivedPolicy.eval delegates). -/
def differenceF (f1 f2 : Pol) : Pol := Pol.sequentialP [Pol.negate f2, f1]

/-- The filter sublanguage of the claim: match, negate, union,
intersection, difference (through the combinators they evaluate as),
identity and drop. -/
inductive IsFilter : Pol → Prop
  | identity : IsFilter Pol.identity
  | drop : IsFilter Pol.drop
  | matchP (m : MatchMap) : IsFilter (Pol.matchP m)
  | negate (p : Pol) : IsFilter p → IsFilter (Pol.negate p)
  | parallelP (ps : List Pol) : (∀ p ∈ ps, IsFilter p) → IsFilter (Pol.parallelP ps)
  | sequentialP (ps : List Pol) : (∀ p ∈ ps, IsFilter p) → IsFilter (Pol.sequentialP ps)

/-! Evaluation with query capture. Query.eval (language.py lines 523-533)
adds the packet to the bucket set under the bucket lock and returns the
empty set. Buckets are Python sets, so addition is idempotent and
commutative; the captures produced by one evaluation are therefore
modelled as a set of (bucket id, packet) pairs, to be unioned into the
buckets' existing contents. -/

mutual

/-- Evaluation with capture: returns the pairs (bucket id, packet) added to
query buckets during evaluation, together with the output packet set. -/
def evalC : Pol → Packet → Finset (Nat × Packet) × Finset Packet
  | Pol.identity, pkt => (∅, {pkt})
  | Pol.drop, _ => (∅, ∅)
  | Pol.controller, _ => (∅, ∅)
  | Pol.matchP m, pkt => (∅, if matchesMap m pkt then {pkt} else ∅)
  | Pol.modifyP m, pkt => (∅, {pkt.modifymany m})
  | Pol.negate p, pkt =>
      let r := evalC p pkt
      (r.1, if r.2 = ∅ then {pkt} else ∅)
  | Pol.parallelP ps, pkt => evalCPar ps pkt
  | Pol.sequentialP ps, pkt => evalCSeq ps {pkt}
  | Pol.query qid, pkt => ({(qid, pkt)}, ∅)

/-- parallel.eval with capture. -/
def evalCPar : List Pol → Packet → Finset (Nat × Packet) × Finset Packet
  | [], _ => (∅, ∅)
  | p :: ps, pkt =>
      let r := evalC p pkt
      let rs := evalCPar ps pkt
      (r.1 ∪ rs.1, r.2 ∪ rs.2)

/-- sequential.eval with capture, same loop structure as evalSeq. -/
def evalCSeq : List Pol → Finset Packet → Finset (Nat × Packet) × Finset Packet
  | [], prev => (∅, prev)
  | p :: ps, prev =>
      if prev = ∅ then (∅, ∅)
      else if isIdEq p then evalCSeq ps prev
      else if isDropEq p then (∅, ∅)
      else
        let caps := prev.biUnion (fun x => (evalC p x).1)
        let next := prev.biUnion (fun x => (evalC p x).2)
        let rs := evalCSeq ps next
        (caps ∪ rs.1, rs.2)

end

/-! Match intersection (match.intersect, language.py lines 324-364). -/

/-- Lookup in a match map (frozendict read). -/
def lookupF (m : MatchMap) (f : String) : Option Pat :=
  (m.find? (fun kv => kv.1 = f)).map (·.2)

/-- frozendict.update: keys of both maps, the second map's value winning on
shared keys. -/
def mapUpdate (m1 m2 : MatchMap) : MatchMap :=
  m1.map (fun kv =>
    match lookupF m2 kv.1 with
    | Option.some p => (kv.1, p)
    | Option.none => kv)
  ++ m2.filter (fun kv => (lookupF m1 kv.1).isNone)

/-- Overwrite the pattern of a present key. -/
def mapSetPat (m : MatchMap) (f : String) (p : Pat) : MatchMap :=
  m.map (fun kv => if kv.1 = f then (f, p) else kv)

/-- Set a key to a pattern, replacing or appending (dict assignment). -/
def mapInsertPat (m : MatchMap) (f : String) (p : Pat) : MatchMap :=
  if (lookupF m f).isSome then mapSetPat m f p else m ++ [(f, p)]

/-- The srcip / dstip fields, whose patterns are CIDR prefixes. -/
def isIpField (f : String) : Bool := f = "srcip" || f = "dstip"

/-- _intersect_ip in match.intersect: the more specific of two prefixes if
one contains the other, otherwise None (meaning drop). IPv4Network(x) in
IPv4Network(y) holds when y contains x. Non-CIDR patterns at an IP field
make the IPv4Network constructor raise in Python and are excluded by
MatchWf below. -/
def intersectIp : Pat → Pat → Option Pat
  | Pat.cidr c1, Pat.cidr c2 =>
      if Cidr.containsNet c2 c1 then Option.some (Pat.cidr c1)
      else if Cidr.containsNet c1 c2 then Option.some (Pat.cidr c2)
      else Option.none
  | _, _ => Option.none

/-- For an IP field shared by both maps, overwrite the merged map with the
more specific prefix (the two d.update calls at lines 359-362). -/
def overrideIp (m1 m2 d : MatchMap) (f : String) : MatchMap :=
  match lookupF m1 f, lookupF m2 f with
  | Option.some p1, Option.some p2 =>
      match intersectIp p1 p2 with
      | Option.some p => mapSetPat d f p
      | Option.none => d
  | _, _ => d

/-- match.intersect on two match maps; None models the drop policy result.
A second operand equal to identity (an empty match map) returns the first
map unchanged (the pol == identity test); a shared non-IP field with
differing patterns, or a shared IP field with incomparable prefixes, gives
drop; otherwise the merged map with the more specific prefix on shared IP
fields. The set-iteration over shared fields is order-insensitive, so it is
rendered as a scan of the first map. -/
def matchIntersect (m1 m2 : MatchMap) : Option MatchMap :=
  if m2.isEmpty then Option.some m1
  else if m1.any (fun kv =>
      match lookupF m2 kv.1 with
      | Option.none => false
      | Option.some p2 =>
          if isIpField kv.1 then (intersectIp kv.2 p2).isNone
          else kv.2 ≠ p2) then
    Option.none
  else
    Option.some (overrideIp m1 m2 (overrideIp m1 m2 (mapUpdate m1 m2) "srcip") "dstip")

/-- Well-formed match map: distinct keys (it is a dict) and CIDR patterns
exactly at the IP fields, with a prefix length of at most 32. -/
def matchWf (m : MatchMap) : Bool :=
  decide ((m.map Prod.fst).Nodup) &&
  m.all (fun kv =>
    if isIpField kv.1 then
      match kv.2 with
      | Pat.cidr c => decide (c.plen ≤ 32)
      | _ => false
    else
      match kv.2 with
      | Pat.cidr _ => false
      | _ => true)

/-! The classifier negation step (negate.generate_classifier, language.py
lines 1024-1035). Rule and Classifier come from pyretic/core/classifier.py
(an external collaborator): a rule is a match policy together with an
ordered action list, a classifier an ordered rule list. -/

/-- A classifier rule: match plus ordered action list. -/
structure CRule where
  cmatch : Pol
  actions : List Pol

/-- A classifier: ordered rule list, earliest rule = highest priority. -/
abbrev Classifier := List CRule

/-- Errors negate.generate_classifier can raise: TypeError for a first
action that is neither identity nor drop, IndexError from r.actions[0] on
an empty action list. -/
inductive CompileErr where
  | typeError
  | indexError
deriving DecidableEq, Repr

/-- negate.generate_classifier: for each rule of the inner classifier, read
its first action (r.actions[0]); identity becomes a drop rule and drop an
identity rule with the same match; anything else raises. The comparisons
are Python ==, so a match with an empty map also counts as identity. -/
def negate_generate_classifier : Classifier → Except CompileErr Classifier
  | [] => Except.ok []
  | r :: rs =>
      match r.actions with
      | [] => Except.error CompileErr.indexError
      | a :: _ =>
          if isIdEq a then
            (negate_generate_classifier rs).map
              (fun c => CRule.mk r.cmatch [Pol.drop] :: c)
          else if isDropEq a then
            (negate_generate_classifier rs).map
              (fun c => CRule.mk r.cmatch [Pol.identity] :: c)
          else Except.error CompileErr.typeError

/-- The claim's action-wise swap of identity and drop. -/
def swapAction (a : Pol) : Pol :=
  if isIdEq a then Pol.drop else if isDropEq a then Pol.identity else a

/-! Dynamic policies (language.py lines 1336-1369) and the classifier
cache of DerivedPolicy.compile (lines 1235-1243). -/

/-- Classifiers of the leaf policies, from their generate_classifier
methods in language.py (Singleton at line 215, _match at 405-408, _modify
at 485-487, CountBucket and PathBucket at 697-698 and 586-587; FwdBucket
compiles to a Controller rule instead but is not needed here). Combinators
compile through the classifier algebra of pyretic/core/classifier.py, an
external collaborator, hence None. -/
def generate_classifier_leaf : Pol → Option Classifier
  | Pol.identity => Option.some [CRule.mk Pol.identity [Pol.identity]]
  | Pol.drop => Option.some [CRule.mk Pol.identity [Pol.drop]]
  | Pol.controller => Option.some [CRule.mk Pol.identity [Pol.controller]]
  | Pol.matchP m => Option.some
      [CRule.mk (Pol.matchP m) [Pol.identity], CRule.mk Pol.identity [Pol.drop]]
  | Pol.modifyP m => Option.some [CRule.mk Pol.identity [Pol.modifyP m]]
  | Pol.query qid => Option.some [CRule.mk Pol.identity [Pol.query qid]]
  | _ => Option.none

/-- A DynamicPolicy node: inner policy _policy, cached classifier
_classifier, and whether a notification callback is attached (attach and
detach set and clear it; it is None after construction). -/
structure DynNode where
  policy : Pol
  classifierCache : Option Classifier
  notifyAttached : Bool

/-- An ancestor DerivedPolicy node above the dynamic node: only its cached
classifier matters, since DerivedPolicy.compile just delegates to the inner
policy's compile and caches the result. -/
structure DerivedNode where
  cache : Option Classifier

/-- DerivedPolicy.compile for the dynamic node itself: return the cache if
set, otherwise compile the inner policy and cache the result. -/
def dynCompile (s : DynNode) : DynNode × Option Classifier :=
  match s.classifierCache with
  | Option.some c => (s, Option.some c)
  | Option.none =>
      let c := generate_classifier_leaf s.policy
      ({ s with classifierCache := c }, c)

/-- Compiling a chain of DerivedPolicy ancestors (outermost first) over the
dynamic node: each uncached ancestor delegates inward and caches the
answer. -/
def chainCompile : List DerivedNode → DynNode → List DerivedNode × DynNode × Option Classifier
  | [], d =>
      let r := dynCompile d
      ([], r.1, r.2)
  | n :: rest, d =>
      match n.cache with
      | Option.some c => (n :: rest, d, Option.some c)
      | Option.none =>
          let r := chainCompile rest d
          (DerivedNode.mk r.2.2 :: r.1, r.2.1, r.2.2)

/-- The DynamicPolicy.policy setter: store the new inner policy, then
changed() fires the notification callback when one is attached. The setter
itself clears no cache. The attached callback is the runtime's handler
(pyretic/core/runtime.py, not in src). Modelled from the spec: the
subscribed handler nulls the cached classifiers of the dynamic node and of
every subscribed ancestor (spec section 3 Invariants and Lifecycles,
section 4.3). With no callback attached, all caches are left untouched,
exactly as in the source. -/
def policy_setter (parents : List DerivedNode) (d : DynNode) (p : Pol) :
    List DerivedNode × DynNode :=
  let d1 : DynNode := { d with policy := p }
  if d.notifyAttached then
    (parents.map (fun _ => DerivedNode.mk Option.none),
     { d1 with classifierCache := Option.none })
  else
    (parents, d1)

/-! CountBucket state and its counter protocol (language.py lines
659-967). The condition-variable waits serialize these handlers against
classifier updates; each handler body runs with the lock held, so each is
modelled as an atomic state transition. -/

/-- A key of CountBucket.matches: (match, priority, version). -/
structure MatchEntry where
  mmap : MatchMap
  priority : Nat
  version : Nat
deriving DecidableEq

/-- CountBucket.match_status: the two per-rule flags. -/
structure MatchStatus where
  to_be_deleted : Bool
  existing_rule : Bool
deriving DecidableEq, Repr

/-- The mutable CountBucket counter state. -/
structure CountBucketSt where
  bmatches : List (MatchEntry × MatchStatus)
  packet_count : Int
  byte_count : Int
  packet_count_persistent : Int
  byte_count_persistent : Int
  outstanding_switches : List Nat

/-- Dict lookup in matches. -/
def lookupEntry (ms : List (MatchEntry × MatchStatus)) (k : MatchEntry) :
    Option MatchStatus :=
  (ms.find? (fun e => e.1 = k)).map (·.2)

/-- Dict deletion in matches. -/
def eraseEntry (ms : List (MatchEntry × MatchStatus)) (k : MatchEntry) :
    List (MatchEntry × MatchStatus) :=
  ms.filter (fun e => ¬ e.1 = k)

/-- Runtime errors of the counter handlers: the failed assert in
handle_flow_removed; the TypeError from the malformed logging format
string in the existing_rule branch of handle_flow_stats_reply (lines
937-939 apply a three-specifier format to the single argument id(self));
the NameError from clear_existing_rule_flag (lines 955-962 reference the
undefined name k instead of the parameter entry); and the RuntimeError for
a flow entry without a match. -/
inductive BucketErr where
  | assertionError
  | logFormatTypeError
  | nameError
  | runtimeError
deriving DecidableEq, Repr

/-- handle_flow_removed (lines 807-844): on a key present in matches, the
entry must be marked to_be_deleted (assert); a non-pre-existing rule adds
its final counters to the persistent counters, a pre-existing rule is just
forgotten; the entry is deleted either way. An absent key leaves the
bucket unchanged. -/
def handle_flow_removed (b : CountBucketSt) (m : MatchMap) (priority version : Nat)
    (packet_count byte_count : Int) : Except BucketErr CountBucketSt :=
  let k := MatchEntry.mk m priority version
  match lookupEntry b.bmatches k with
  | Option.none => Except.ok b
  | Option.some status =>
      if status.to_be_deleted then
        Except.ok { b with
          packet_count_persistent := b.packet_count_persistent +
            (if status.existing_rule then 0 else packet_count),
          byte_count_persistent := b.byte_count_persistent +
            (if status.existing_rule then 0 else byte_count),
          bmatches := eraseEntry b.bmatches k }
      else Except.error BucketErr.assertionError

/-- One entry of a flow_stats reply; fmatch is None when the Python dict
lacks a match key (the weird flow entry branch). -/
structure FlowStatRec where
  fmatch : Option MatchMap
  priority : Nat
  cookie : Nat
  packet_count : Int
  byte_count : Int

/-- The reply-processing loop of handle_flow_stats_reply (lines 920-944):
for each entry, build the key by writing the reply switch into a copy of
the stat's match and pairing it with (priority, cookie); a key found in
matches adds its counts to the bucket counters unless the entry is flagged
existing_rule, in which case the source first evaluates a malformed %
format string (lines 937-939) and dies with a TypeError, before the
intended subtraction from the persistent counters and the flag clearing
(itself broken: clear_existing_rule_flag uses the undefined name k) can
run. -/
def processStats (s : Nat) : CountBucketSt → List FlowStatRec → Except BucketErr CountBucketSt
  | b, [] => Except.ok b
  | b, f :: fs =>
      match f.fmatch with
      | Option.none => Except.error BucketErr.runtimeError
      | Option.some fm =>
          let k := MatchEntry.mk (mapInsertPat fm "switch" (Pat.val (Val.num s)))
                     f.priority f.cookie
          match lookupEntry b.bmatches k with
          | Option.none => processStats s b fs
          | Option.some status =>
              if status.existing_rule then
                Except.error BucketErr.logFormatTypeError
              else
                processStats s { b with
                  packet_count := b.packet_count + f.packet_count,
                  byte_count := b.byte_count + f.byte_count } fs

/-- handle_flow_stats_reply (lines 895-953): snapshot the persistent
counters into packet_count and byte_count, process the reply entries if the
switch has an outstanding query, then remove the switch from
outstanding_switches. The returned flag records whether
outstanding_switches is empty afterwards, i.e. whether the user callbacks
fire with the accumulated counts. -/
def handle_flow_stats_reply (b0 : CountBucketSt) (s : Nat)
    (flow_stats : List FlowStatRec) : Except BucketErr (CountBucketSt × Bool) :=
  let b : CountBucketSt := { b0 with
    packet_count := b0.packet_count_persistent,
    byte_count := b0.byte_count_persistent }
  if s ∈ b.outstanding_switches then
    match processStats s b flow_stats with
    | Except.error e => Except.error e
    | Except.ok b1 =>
        let b2 : CountBucketSt := { b1 with
          outstanding_switches := b1.outstanding_switches.erase s }
        Except.ok (b2, b2.outstanding_switches.isEmpty)
  else
    Except.ok (b, b.outstanding_switches.isEmpty)

/-! The CharacterGenerator of pyretic/lib/path.py (lines 50-293), for one
token type. Filter policies are modelled extensionally as finite sets of
packets over a packet universe alpha, with the filter algebra as set
operations; the overlap test has_nonempty_intersection (implemented by
compiling the intersection through pyretic/core/classifier.py, an external
collaborator) is Modelled from the spec as a nonempty intersection of the
two filters, and a filter conjoined with a negation as a set difference.
The pair of mutually inverse dicts filter_to_token / token_to_filter is
modelled as the single association list tokenToFilter read from either
side (the source keeps the two in sync: additions and deletions always
pair). -/

/-- The character codes of the regex metacharacters skipped by
__new_token__ (char_in_lexer_language, path.py lines 254-259). -/
def lexerTokens : List Nat :=
  [42, 43, 124, 123, 125, 40, 41, 45, 94, 46, 38, 63, 34, 39, 37, 36, 44,
   47, 92, 61, 62, 60]

theorem lexerTokens_le {x : Nat} (h : x ∈ lexerTokens) : x ≤ 125 := by
  fin_cases h <;> decide

/-- CharacterGenerator.__new_token__: increment the token counter, skipping
characters of the lexer language. -/
def newTokenFrom (t : Nat) : Nat :=
  if h : t + 1 ∈ lexerTokens then newTokenFrom (t + 1) else t + 1
termination_by 126 - t
decreasing_by
  have := lexerTokens_le h
  omega

/-- The per-toktype CharacterGenerator class state: the token counter and
the token maps of one token type. -/
structure CGState (α : Type) where
  token : Nat
  tokenToFilter : List (Nat × Finset α)
  tokenToTokens : List (Nat × List Nat)

variable {α : Type} [DecidableEq α]

/-- Dict lookup keyed by token. -/
def lookupTok {β : Type} (l : List (Nat × β)) (t : Nat) : Option β :=
  (l.find? (fun kv => kv.1 = t)).map (·.2)

/-- filter_to_token lookup: the token of an exactly equal filter, if any. -/
def lookupFilter (l : List (Nat × Finset α)) (f : Finset α) : Option Nat :=
  (l.find? (fun kv => kv.2 = f)).map (·.1)

/-- CharacterGenerator.__add_new_token: draw a fresh token and map it to
the filter in both directions. -/
def addNewToken (s : CGState α) (f : Finset α) : CGState α × Nat :=
  let t := newTokenFrom s.token
  ({ token := t,
     tokenToFilter := s.tokenToFilter ++ [(t, f)],
     tokenToTokens := s.tokenToTokens }, t)

/-- The token of the second split piece, cls.token after the two
__add_new_token calls of a split. -/
def splitTok2 (s : CGState α) : Nat := newTokenFrom (newTokenFrom s.token)

/-- One split of an existing leaf (tok, ef) against the new filter
nf (path.py lines 147-153): delete the leaf from both dicts, map fresh
tokens to the parts of ef outside and inside nf, and record tok as an
alias for the two fresh tokens. -/
def splitOne (s : CGState α) (tok : Nat) (ef nf : Finset α) : CGState α :=
  let s1 : CGState α := { s with
    tokenToFilter := s.tokenToFilter.filter (fun kv => ¬ kv.1 = tok) }
  let r1 := addNewToken s1 (ef \ nf)
  let r2 := addNewToken r1.1 (ef ∩ nf)
  { r2.1 with tokenToTokens := r2.1.tokenToTokens ++ [(tok, [r1.2, r2.2])] }

/-- The loop of __add_new_filter (path.py lines 138-163) over a snapshot of
token_to_filter.values() (a Python 2 list copy, so mutation during the loop
is safe). Arguments: the new filter, the remaining snapshot, the current
state, the accumulated diff_list (None while still the drop policy) and the
accumulated new_intersecting_tokens. An existing filter that meets the new
filter but is not contained in it is split; a contained filter keeps its
token; every met filter joins the diff list. -/
def dlJoin : Option (Finset α) → Finset α → Finset α
  | Option.none, ef => ef
  | Option.some d, ef => d ∪ ef

def splitLoop (nf : Finset α) :
    List (Nat × Finset α) → CGState α → Option (Finset α) → List Nat →
    CGState α × Option (Finset α) × List Nat
  | [], s, dl, nits => (s, dl, nits)
  | (tok, ef) :: rest, s, dl, nits =>
      if ef ∩ nf ≠ ∅ then
        if ef \ nf ≠ ∅ then
          splitLoop nf rest (splitOne s tok ef nf) (Option.some (dlJoin dl ef))
            (nits ++ [splitTok2 s])
        else
          splitLoop nf rest s (Option.some (dlJoin dl ef)) (nits ++ [tok])
      else
        splitLoop nf rest s dl nits

/-- The loop of __add_new_filter run on the snapshot of
token_to_filter.values(), starting from the drop diff list and no
intersecting tokens. -/
def splitRes (s : CGState α) (nf : Finset α) :
    CGState α × Option (Finset α) × List Nat :=
  splitLoop nf s.tokenToFilter s Option.none []

/-- The state with the token counter advanced (the counter side effect of
cls.__new_token__). -/
def withToken (s : CGState α) (n : Nat) : CGState α := { s with token := n }

/-- Record an alias entry in token_to_tokens. -/
def addAlias (s : CGState α) (t : Nat) (ts : List Nat) : CGState α :=
  { s with tokenToTokens := s.tokenToTokens ++ [(t, ts)] }

/-- path.py lines 168-172: if the intersections did not completely make up
the new filter, map a fresh token to the residual part; return it as the
single-element new_disjoint_token list. -/
def residualLeaf (s2 : CGState α) (nf dl : Finset α) : CGState α × List Nat :=
  if nf \ dl ≠ ∅ then
    ((addNewToken s2 (nf \ dl)).1, [(addNewToken s2 (nf \ dl)).2])
  else
    (s2, [])

/-- The tail of __add_new_filter after the loop (path.py lines 165-179),
dispatching on the accumulated diff list. -/
def finishAdd (s : CGState α) (nf : Finset α) :
    Option (Finset α) → CGState α × Nat
  | Option.some dl =>
      (addAlias
        (residualLeaf (withToken (splitRes s nf).1
          (newTokenFrom (splitRes s nf).1.token)) nf dl).1
        (newTokenFrom (splitRes s nf).1.token)
        ((splitRes s nf).2.2 ++
         (residualLeaf (withToken (splitRes s nf).1
           (newTokenFrom (splitRes s nf).1.token)) nf dl).2),
       newTokenFrom (splitRes s nf).1.token)
  | Option.none => addNewToken (splitRes s nf).1 nf

/-- CharacterGenerator.__add_new_filter (path.py lines 133-179): run the
split loop on the current leaves; if anything intersected, draw a fresh
token, add a leaf for the part of the new filter outside the diff list when
it is nonempty, and record the fresh token as an alias for the intersecting
and residual tokens; otherwise map the new filter directly. -/
def add_new_filter (s : CGState α) (nf : Finset α) : CGState α × Nat :=
  finishAdd s nf (splitRes s nf).2.1

/-- CharacterGenerator.get_token with nonoverlapping_filters (path.py lines
225-236): return the token of a filter already mapped, otherwise add the
new filter maintaining disjointness. -/
def get_token (s : CGState α) (f : Finset α) : CGState α × Nat :=
  match lookupFilter s.tokenToFilter f with
  | Option.some t => (s, t)
  | Option.none => add_new_filter s f

/-- The class state after clear(): counter at TOKEN_START_VALUE, empty
maps. -/
def initCG : CGState α :=
  { token := 48, tokenToFilter := [], tokenToTokens := [] }

/-- Run a sequence of get_token calls from the cleared state. -/
def runGetTokens (fs : List (Finset α)) : CGState α :=
  fs.foldl (fun s f => (get_token s f).1) initCG

/-- The token issued for the i-th filter of the sequence. -/
def issuedToken (fs : List (Finset α)) (i : Nat) : Nat :=
  (get_token (runGetTokens (fs.take i)) (fs.getD i ∅)).2

/-- Union of a list of filters. -/
def unionOf (l : List (Finset α)) : Finset α :=
  l.foldr (fun f acc => f ∪ acc) ∅

/-- Union of the leaf filters of the state. -/
def leavesUnion (s : CGState α) : Finset α :=
  unionOf (s.tokenToFilter.map Prod.snd)

/-- get_filter_from_token (path.py lines 181-196) as a relation: a leaf
token denotes its mapped filter; a token mapped in token_to_tokens but not
in token_to_filter denotes the union of the denotations of its alias list
(the code folds the Boolean or of the members, starting from the first). -/
inductive Denotes (s : CGState α) : Nat → Finset α → Prop
  | leaf (t : Nat) (f : Finset α) :
      lookupTok s.tokenToFilter t = Option.some f →
      Denotes s t f
  | expand (t : Nat) (ts : List Nat) (g : Nat → Finset α) :
      lookupTok s.tokenToFilter t = Option.none →
      lookupTok s.tokenToTokens t = Option.some ts →
      ts ≠ [] →
      (∀ u ∈ ts, Denotes s u (g u)) →
      Denotes s t (ts.foldl (fun acc u => acc ∪ g u) ∅)

/-! Lemmas about evaluation. -/

theorem eval_of_isIdEq {p : Pol} (h : isIdEq p = true) (pkt : Packet) :
    eval p pkt = {pkt} := by
  cases p <;> simp [isIdEq] at h <;> simp [eval]
  case matchP m =>
    subst h
    simp [matchesMap]

theorem eval_of_isDropEq {p : Pol} (h : isDropEq p = true) (pkt : Packet) :
    eval p pkt = ∅ := by
  cases p <;> simp [isDropEq] at h
  simp [eval]

/-- Filters evaluate to subsets of the singleton input. -/
theorem eval_filter_subset {p : Pol} (h : IsFilter p) :
    ∀ pkt : Packet, eval p pkt ⊆ {pkt} := by
  induction h with
  | identity => intro pkt; simp [eval]
  | drop => intro pkt; simp [eval]
  | matchP m =>
      intro pkt
      simp only [eval]
      split <;> simp
  | negate p _ _ =>
      intro pkt
      simp only [eval]
      split <;> simp
  | parallelP ps _ ih =>
      intro pkt
      simp only [eval]
      have : ∀ qs : List Pol, (∀ q ∈ qs, IsFilter q) →
          (∀ q ∈ qs, ∀ x, eval q x ⊆ {x}) → evalPar qs pkt ⊆ {pkt} := by
        intro qs
        induction qs with
        | nil => intro _ _; simp [evalPar]
        | cons q qs ihq =>
            intro hq hsub
            simp only [evalPar]
            exact Finset.union_subset (hsub q (by simp) pkt)
              (ihq (fun r hr => hq r (by simp [hr])) (fun r hr => hsub r (by simp [hr])))
      exact this ps (by assumption) ih
  | sequentialP ps _ ih =>
      intro pkt
      simp only [eval]
      have key : ∀ qs : List Pol, (∀ q ∈ qs, ∀ x, eval q x ⊆ {x}) →
          ∀ prev : Finset Packet, prev ⊆ {pkt} → evalSeq qs prev ⊆ {pkt} := by
        intro qs
        induction qs with
        | nil => intro _ prev hprev; simpa [evalSeq] using hprev
        | cons q qs ihq =>
            intro hsub prev hprev
            simp only [evalSeq]
            split
            · simp
            · split
              · exact ihq (fun r hr => hsub r (by simp [hr])) prev hprev
              · split
                · simp
                · refine ihq (fun r hr => hsub r (by simp [hr])) _ ?_
                  intro a ha
                  rcases Finset.mem_biUnion.mp ha with ⟨x, hx, hax⟩
                  have hxp : x = pkt := Finset.mem_singleton.mp (hprev hx)
                  subst hxp
                  exact hsub q (by simp) x hax
      exact key ps ih {pkt} (by simp)

/-- C1: For every Filter policy f (match, negate, union, intersection,
difference, identity, drop) and every packet pkt, evaluating f on pkt
returns either the singleton set containing pkt or the empty set; a filter
never returns a packet different from its input. -/
theorem filter_eval_singleton_or_empty (f : Pol) (hf : IsFilter f) (pkt : Packet) :
    eval f pkt = {pkt} ∨ eval f pkt = ∅ := by
  rcases Finset.subset_singleton_iff.mp (eval_filter_subset hf pkt) with h | h
  · exact Or.inr h
  · exact Or.inl h

/-- Witness for C1: a difference of two matches, evaluated on a concrete
packet, applied through the theorem. -/
theorem filter_eval_singleton_or_empty_witness :
    eval (differenceF (Pol.matchP [("dstport", Pat.val (Val.num 80))])
                      (Pol.matchP [("switch", Pat.val (Val.num 1))]))
         (Packet.mk [("dstport", Val.num 80)]) =
        {Packet.mk [("dstport", Val.num 80)]}
  ∨ eval (differenceF (Pol.matchP [("dstport", Pat.val (Val.num 80))])
                      (Pol.matchP [("switch", Pat.val (Val.num 1))]))
         (Packet.mk [("dstport", Val.num 80)]) = ∅ :=
  filter_eval_singleton_or_empty _
    (IsFilter.sequentialP _ (by
      intro p hp
      simp only [List.mem_cons, List.mem_singleton] at hp
      rcases hp with h | h | h
      · subst h; exact IsFilter.negate _ (IsFilter.matchP _)
      · subst h; exact IsFilter.matchP _
      · cases h))
    (Packet.mk [("dstport", Val.num 80)])

/-! Lemmas for the sequential algebra. -/

/-- Folding the bind over a list, starting from the empty set, stays
empty. -/
theorem foldl_bind_empty (ps : List Pol) :
    ps.foldl (fun (acc : Finset Packet) q => acc.biUnion (fun x => eval q x)) ∅ = ∅ := by
  induction ps with
  | nil => rfl
  | cons p ps ih =>
      simp only [List.foldl_cons, Finset.biUnion_empty]
      exact ih

/-- The sequential.eval loop computes the left fold of the bind. -/
theorem evalSeq_eq_foldl (ps : List Pol) :
    ∀ prev : Finset Packet,
      evalSeq ps prev = ps.foldl (fun acc q => acc.biUnion (fun x => eval q x)) prev := by
  induction ps with
  | nil => intro prev; rfl
  | cons p ps ih =>
      intro prev
      simp only [evalSeq, List.foldl_cons]
      split
      · next hprev =>
          subst hprev
          rw [Finset.biUnion_empty, foldl_bind_empty]
      · split
        · next hid =>
            rw [ih]
            have h1 : prev.biUnion (fun x => eval p x) = prev := by
              rw [Finset.biUnion_congr rfl (fun x _ => eval_of_isIdEq hid x)]
              simp
            rw [h1]
        · split
          · next hdrop =>
              have h1 : prev.biUnion (fun x => eval p x) = ∅ := by
                rw [Finset.biUnion_congr rfl (fun x _ => eval_of_isDropEq hdrop x)]
                ext a
                simp
              rw [h1, foldl_bind_empty]
          · exact ih _

/-- The fold of binds over a set is the union of the folds over its
elements. -/
theorem foldl_bind_biUnion (ps : List Pol) :
    ∀ s : Finset Packet,
      ps.foldl (fun acc q => acc.biUnion (fun x => eval q x)) s =
        s.biUnion (fun x => ps.foldl (fun acc q => acc.biUnion (fun y => eval q y)) {x}) := by
  induction ps with
  | nil => intro s; simp
  | cons p ps ih =>
      intro s
      simp only [List.foldl_cons]
      rw [ih, Finset.biUnion_biUnion]
      refine Finset.biUnion_congr rfl (fun x _ => ?_)
      rw [ih (Finset.biUnion {x} (fun y => eval p y)), Finset.singleton_biUnion]

/-- Evaluation of a policy equals the fold of its sequential member
list. -/
theorem foldl_seqList (p : Pol) (pkt : Packet) :
    (seqList p).foldl (fun acc q => acc.biUnion (fun x => eval q x)) {pkt} = eval p pkt := by
  cases p <;> simp [seqList, eval, evalSeq_eq_foldl]

/-- C2: For every pair of policies p, q and every packet pkt, evaluating
the sequential composition p >> q on pkt equals the union, over every
packet x in the result of evaluating p on pkt, of the result of evaluating
q on x; and the eval of a sequential of any arity is the left fold of this
bind over its members. -/
theorem sequential_eval_bind (p q : Pol) (ps : List Pol) (pkt : Packet) :
    eval (rshift p q) pkt = (eval p pkt).biUnion (fun x => eval q x)
  ∧ eval (Pol.sequentialP ps) pkt =
      ps.foldl (fun acc r => acc.biUnion (fun x => eval r x)) {pkt} := by
  constructor
  · show evalSeq (seqList p ++ seqList q) {pkt} = _
    rw [evalSeq_eq_foldl, List.foldl_append, foldl_seqList, foldl_bind_biUnion]
    exact Finset.biUnion_congr rfl (fun x _ => foldl_seqList q x)
  · show evalSeq ps {pkt} = _
    exact evalSeq_eq_foldl ps {pkt}

/-! Capturing evaluation agrees with pure evaluation on the output packet
set. -/

mutual

/-- The output component of capturing evaluation is the pure evaluation. -/
theorem evalC_snd : ∀ (p : Pol) (pkt : Packet), (evalC p pkt).2 = eval p pkt
  | Pol.identity, _ => rfl
  | Pol.drop, _ => rfl
  | Pol.controller, _ => rfl
  | Pol.matchP _, _ => rfl
  | Pol.modifyP _, _ => rfl
  | Pol.negate p, pkt => by
      simp only [evalC, eval, evalC_snd p pkt]
  | Pol.parallelP ps, pkt => by
      simp only [evalC, eval]
      exact evalCPar_snd ps pkt
  | Pol.sequentialP ps, pkt => by
      simp only [evalC, eval]
      exact evalCSeq_snd ps {pkt}
  | Pol.query _, _ => rfl

theorem evalCPar_snd : ∀ (ps : List Pol) (pkt : Packet),
    (evalCPar ps pkt).2 = evalPar ps pkt
  | [], _ => rfl
  | p :: ps, pkt => by
      simp only [evalCPar, evalPar, evalC_snd p pkt, evalCPar_snd ps pkt]

theorem evalCSeq_snd : ∀ (ps : List Pol) (prev : Finset Packet),
    (evalCSeq ps prev).2 = evalSeq ps prev
  | [], _ => rfl
  | p :: ps, prev => by
      simp only [evalCSeq, evalSeq]
      split
      · rfl
      · split
        · exact evalCSeq_snd ps prev
        · split
          · rfl
          · have h1 : prev.biUnion (fun x => (evalC p x).2) =
                prev.biUnion (fun x => eval p x) :=
              Finset.biUnion_congr rfl (fun x _ => evalC_snd p x)
            rw [h1]
            exact evalCSeq_snd ps _

end

/-- C10: For every Query bucket and every packet, in-process evaluation of
the bucket on the packet records the packet into the bucket's capture set
and returns the empty packet set; and for every policy, the output packet
set of the capturing evaluation coincides with the pure evaluation, so
query captures never alter the rest of the policy's output. -/
theorem query_eval_capture (qid : Nat) (p : Pol) (pkt : Packet) :
    evalC (Pol.query qid) pkt = ({(qid, pkt)}, ∅)
  ∧ (evalC p pkt).2 = eval p pkt :=
  ⟨rfl, evalC_snd p pkt⟩

/-! Match evaluation semantics. -/

/-- One field binding passes exactly under the spelled-out semantics: a
None pattern requires an absent field, a value pattern the equal present
value, a CIDR pattern a present IPv4 address within the prefix range. -/
theorem fieldPass_iff (pkt : Packet) (f : String) (p : Pat) :
    fieldPass pkt (f, p) = true ↔
      ((p = Pat.none → pkt.get f = Option.none) ∧
       (∀ v, p = Pat.val v → pkt.get f = Option.some v) ∧
       (∀ c, p = Pat.cidr c → ∃ a, pkt.get f = Option.some (Val.ipv4 a) ∧
          c.network ≤ a ∧ a ≤ c.broadcast)) := by
  cases p with
  | none => simp [fieldPass, Option.isNone_iff_eq_none]
  | val v =>
      cases hg : pkt.get f with
      | none => simp [fieldPass, hg]
      | some w =>
          constructor
          · intro h
            have hvw : v = w := by simpa [fieldPass, hg] using h
            subst hvw
            exact ⟨fun hc => (by cases hc), fun v' hv' => (by cases hv'; rfl),
                   fun c hc => (by cases hc)⟩
          · intro h
            have h3 : w = v := Option.some.inj (h.2.1 v rfl)
            simp [fieldPass, hg, h3]
  | cidr c =>
      cases hg : pkt.get f with
      | none => simp [fieldPass, hg]
      | some w => cases w <;> simp [fieldPass, hg, Cidr.containsAddr]

/-- C3 (amended): evaluating a match on a packet keeps the packet iff
every field bound to a non-None pattern is present with a matching value
(srcip / dstip CIDR patterns matched by containment of the address in the
prefix) and every field bound to the None pattern is absent; the empty
match matches every packet. -/
theorem match_eval_characterization (m : MatchMap) (pkt : Packet) :
    (eval (Pol.matchP m) pkt = {pkt} ↔
      ∀ f p, (f, p) ∈ m →
        ((p = Pat.none → pkt.get f = Option.none) ∧
         (∀ v, p = Pat.val v → pkt.get f = Option.some v) ∧
         (∀ c, p = Pat.cidr c → ∃ a, pkt.get f = Option.some (Val.ipv4 a) ∧
            c.network ≤ a ∧ a ≤ c.broadcast)))
  ∧ eval (Pol.matchP []) pkt = {pkt} := by
  constructor
  · have hiff : eval (Pol.matchP m) pkt = {pkt} ↔ matchesMap m pkt = true := by
      simp only [eval]
      split
      · next h => simp [h]
      · next h =>
          constructor
          · intro hc
            exact absurd hc.symm (Finset.singleton_ne_empty pkt)
          · intro hc
            exact absurd hc h
    rw [hiff, matchesMap, List.all_eq_true]
    constructor
    · intro h f p hfp
      exact (fieldPass_iff pkt f p).mp (h (f, p) hfp)
    · intro h fp hfp
      exact (fieldPass_iff pkt fp.1 fp.2).mpr (h fp.1 fp.2 hfp)
  · rfl

/-- Counterexample to C3 as stated: the match binding vlan_id to the None
pattern accepts a packet in which vlan_id is not present at all, while the
claim requires every field listed in the match to be present in the
packet. -/
theorem match_eval_counterexample :
    eval (Pol.matchP [("vlan_id", Pat.none)]) (Packet.mk []) = {Packet.mk []}
  ∧ ¬ ∃ v, (Packet.mk []).get "vlan_id" = Option.some v := by
  constructor
  · rfl
  · rintro ⟨v, hv⟩
    simp [Packet.get] at hv

/-! The classifier negation step. -/

/-- Does a rule's first action compare equal to identity or to drop? -/
def firstActionIdOrDrop (r : CRule) : Bool :=
  match r.actions with
  | [] => false
  | a :: _ => isIdEq a || isDropEq a

/-- The rule negation actually performed: a single action swapping the
first action of the rule. -/
def negSwapRule (r : CRule) : CRule :=
  match r.actions with
  | [] => r
  | a :: _ => CRule.mk r.cmatch [if isIdEq a then Pol.drop else Pol.identity]

/-- C5 (amended): if every rule of the inner classifier has a first action
equal to identity or drop, negation yields the classifier with the same
matches in the same order, each rule carrying the single action obtained
by swapping that first action; if some rule has an empty action list or a
first action that is neither, negation raises an exception. Only the
first action of each rule is inspected. -/
theorem negate_classifier_first_action (c : Classifier) :
    ((∀ r ∈ c, firstActionIdOrDrop r = true) →
        negate_generate_classifier c = Except.ok (c.map negSwapRule))
  ∧ ((∃ r ∈ c, firstActionIdOrDrop r = false) →
        ∃ e, negate_generate_classifier c = Except.error e) := by
  induction c with
  | nil =>
      refine ⟨fun _ => rfl, ?_⟩
      rintro ⟨r, hr, -⟩
      cases hr
  | cons r rs ih =>
      constructor
      · intro h
        have hr := h r (by simp)
        simp only [negate_generate_classifier]
        match hact : r.actions with
        | [] => simp [firstActionIdOrDrop, hact] at hr
        | a :: rest =>
            simp only [firstActionIdOrDrop, hact] at hr
            have htail := ih.1 (fun q hq => h q (by simp [hq]))
            rcases Bool.or_eq_true_iff.mp hr with hid | hdrop
            · simp [hid, htail, List.map_cons, negSwapRule, hact, Except.map]
            · have hnid : isIdEq a = false := by
                cases a <;> simp [isIdEq, isDropEq] at hdrop ⊢
              simp [hnid, hdrop, htail, List.map_cons, negSwapRule, hact, Except.map]
      · rintro ⟨q, hq, hbad⟩
        simp only [List.mem_cons] at hq
        rcases hq with hq | hq
        · subst hq
          simp only [negate_generate_classifier]
          match hact : q.actions with
          | [] => exact ⟨CompileErr.indexError, rfl⟩
          | a :: rest =>
              have hbad2 : isIdEq a = false ∧ isDropEq a = false := by
                simpa [firstActionIdOrDrop, hact, Bool.or_eq_false_iff] using hbad
              exact ⟨CompileErr.typeError, by simp [hbad2.1, hbad2.2]⟩
        · rcases ih.2 ⟨q, hq, hbad⟩ with ⟨e, he⟩
          simp only [negate_generate_classifier]
          match hact : r.actions with
          | [] => exact ⟨CompileErr.indexError, rfl⟩
          | a :: rest =>
              by_cases hid : isIdEq a = true
              · exact ⟨e, by simp [hid, he, Except.map]⟩
              · by_cases hdrop : isDropEq a = true
                · exact ⟨e, by simp [hid, hdrop, he, Except.map]⟩
                · exact ⟨CompileErr.typeError, by simp [hid, hdrop]⟩

/-- Witness for C5 (amended): a two-rule filter classifier is negated
rule-wise, and a classifier whose first rule has a modify first action
raises. -/
theorem negate_classifier_first_action_witness :
    negate_generate_classifier
        [CRule.mk (Pol.matchP [("switch", Pat.val (Val.num 1))]) [Pol.identity],
         CRule.mk Pol.identity [Pol.drop]] =
      Except.ok
        [CRule.mk (Pol.matchP [("switch", Pat.val (Val.num 1))]) [Pol.drop],
         CRule.mk Pol.identity [Pol.identity]]
  ∧ ∃ e, negate_generate_classifier
        [CRule.mk Pol.identity [Pol.modifyP [("outport", Option.some (Val.num 2))]]] =
      Except.error e :=
  ⟨(negate_classifier_first_action _).1 (by
      intro r hr
      simp only [List.mem_cons, List.mem_singleton] at hr
      rcases hr with h | h | h
      · subst h; rfl
      · subst h; rfl
      · cases h),
   (negate_classifier_first_action _).2
     ⟨CRule.mk Pol.identity [Pol.modifyP [("outport", Option.some (Val.num 2))]],
      by simp, rfl⟩⟩

/-- Counterexample to C5 as stated: a classifier arising from a filter may
carry a rule with the action list [identity, drop] (all actions among
identity and drop); its negation keeps only the swap of the first action,
[drop], not the action-wise swap [drop, identity]; and a rule whose second
action is a modify raises no exception because only the first action is
inspected. -/
theorem negate_classifier_counterexample :
    (negate_generate_classifier [CRule.mk Pol.identity [Pol.identity, Pol.drop]] =
        Except.ok [CRule.mk Pol.identity [Pol.drop]]
      ∧ negate_generate_classifier [CRule.mk Pol.identity [Pol.identity, Pol.drop]] ≠
          Except.ok [CRule.mk Pol.identity
            ([Pol.identity, Pol.drop].map swapAction)])
  ∧ negate_generate_classifier
        [CRule.mk Pol.identity
          [Pol.identity, Pol.modifyP [("outport", Option.some (Val.num 2))]]] =
      Except.ok [CRule.mk Pol.identity [Pol.drop]] := by
  refine ⟨⟨rfl, ?_⟩, rfl⟩
  intro hc
  simp only [List.map_cons, List.map_nil, swapAction] at hc
  have h1 : [CRule.mk Pol.identity [Pol.drop]] =
      [CRule.mk Pol.identity [Pol.drop, Pol.identity]] := by
    have := hc
    simp only [negate_generate_classifier, isIdEq, isDropEq] at this
    exact Except.ok.inj this
  have h2 := congrArg (fun l => (l.headD (CRule.mk Pol.identity [])).actions.length) h1
  simp at h2

/-! Match intersection: lookup lemmas. -/

theorem lookupF_cons (e : String × Pat) (m : MatchMap) (f : String) :
    lookupF (e :: m) f = if e.1 = f then Option.some e.2 else lookupF m f := by
  by_cases he : e.1 = f
  · rw [if_pos he]
    unfold lookupF
    rw [List.find?_cons]
    have hd : decide (e.1 = f) = true := by simp [he]
    simp [hd]
  · rw [if_neg he]
    unfold lookupF
    rw [List.find?_cons]
    have hd : decide (e.1 = f) = false := by simp [he]
    simp [hd]

theorem lookupF_mem {m : MatchMap} {f : String} {p : Pat}
    (h : lookupF m f = Option.some p) : (f, p) ∈ m := by
  induction m with
  | nil => cases h
  | cons e m ih =>
      rw [lookupF_cons] at h
      by_cases he : e.1 = f
      · rw [if_pos he] at h
        have hp : e.2 = p := Option.some.inj h
        have hep : e = (f, p) := by rw [← he, ← hp]
        rw [← hep]
        exact List.mem_cons_self e m
      · rw [if_neg he] at h
        exact List.mem_cons_of_mem e (ih h)

theorem mem_lookupF {m : MatchMap} {f : String} {p : Pat}
    (hn : (m.map Prod.fst).Nodup) (h : (f, p) ∈ m) : lookupF m f = Option.some p := by
  induction m with
  | nil => cases h
  | cons e m ih =>
      rw [List.map_cons, List.nodup_cons] at hn
      rw [lookupF_cons]
      rcases List.mem_cons.mp h with he | hm
      · rw [← he]
        simp
      · have hf : f ∈ m.map Prod.fst := List.mem_map.mpr ⟨(f, p), hm, rfl⟩
        have hne : ¬ e.1 = f := fun hc => hn.1 (hc ▸ hf)
        rw [if_neg hne]
        exact ih hn.2 hm

theorem lookupF_isSome_iff {m : MatchMap} {f : String} :
    (lookupF m f).isSome = true ↔ f ∈ m.map Prod.fst := by
  induction m with
  | nil => simp [lookupF]
  | cons e m ih =>
      rw [lookupF_cons]
      by_cases he : e.1 = f
      · simp [he]
      · simp only [if_neg he, List.map_cons, List.mem_cons, ih]
        constructor
        · intro h
          exact Or.inr h
        · intro h
          rcases h with h | h
          · exact absurd h.symm he
          · exact h

/-- The all-fields condition of matchWf, read through lookup. -/
theorem matchWf_nodup {m : MatchMap} (h : matchWf m = true) :
    (m.map Prod.fst).Nodup := by
  have := (Bool.and_eq_true _ _).mp h
  exact of_decide_eq_true this.1

theorem matchWf_at {m : MatchMap} (h : matchWf m = true) {f : String} {p : Pat}
    (hm : (f, p) ∈ m) :
    (isIpField f = true → ∃ c, p = Pat.cidr c ∧ c.plen ≤ 32)
  ∧ (isIpField f = false → ∀ c, p ≠ Pat.cidr c) := by
  have h2 := (Bool.and_eq_true _ _).mp h
  have h3 := List.all_eq_true.mp h2.2 (f, p) hm
  constructor
  · intro hip
    rw [hip] at h3
    simp only [if_true] at h3
    cases p with
    | cidr c => exact ⟨c, rfl, of_decide_eq_true h3⟩
    | none => cases h3
    | val v => cases h3
  · intro hip
    rw [hip] at h3
    simp only [Bool.false_eq_true, if_false] at h3
    cases p with
    | cidr c => cases h3
    | none => intro c hc; cases hc
    | val v => intro c hc; cases hc

/-! Lookup through the map-building blocks of match.intersect. -/

theorem lookupF_append (a b : MatchMap) (f : String) :
    lookupF (a ++ b) f =
      match lookupF a f with
      | Option.some p => Option.some p
      | Option.none => lookupF b f := by
  induction a with
  | nil => rfl
  | cons e a ih =>
      rw [List.cons_append, lookupF_cons, lookupF_cons]
      by_cases he : e.1 = f
      · rw [if_pos he, if_pos he]
      · rw [if_neg he, if_neg he, ih]

theorem lookupF_updateLeft (m1 m2 : MatchMap) (f : String) :
    lookupF (m1.map (fun kv =>
        match lookupF m2 kv.1 with
        | Option.some p => (kv.1, p)
        | Option.none => kv)) f =
      match lookupF m1 f, lookupF m2 f with
      | Option.some _, Option.some p2 => Option.some p2
      | Option.some p1, Option.none => Option.some p1
      | Option.none, _ => Option.none := by
  induction m1 with
  | nil => rfl
  | cons e m1 ih =>
      rw [List.map_cons, lookupF_cons, lookupF_cons]
      cases h2 : lookupF m2 e.1 with
      | some p =>
          by_cases he : e.1 = f
          · rw [if_pos he, if_pos he, ← he, h2]
          · rw [if_neg he, if_neg he, ih]
      | none =>
          by_cases he : e.1 = f
          · rw [if_pos he, if_pos he, ← he, h2]
          · rw [if_neg he, if_neg he, ih]

theorem lookupF_filterRight (m1 m2 : MatchMap) (f : String) :
    lookupF (m2.filter (fun kv => (lookupF m1 kv.1).isNone)) f =
      if (lookupF m1 f).isSome then Option.none else lookupF m2 f := by
  induction m2 with
  | nil =>
      cases h : (lookupF m1 f).isSome
      · simp [lookupF, h]
      · simp [lookupF, h]
  | cons e m2 ih =>
      rw [List.filter_cons]
      by_cases hp : (lookupF m1 e.1).isNone = true
      · rw [if_pos (by simpa using hp), lookupF_cons]
        by_cases he : e.1 = f
        · rw [if_pos he, lookupF_cons, if_pos he]
          have : (lookupF m1 f).isSome = false := by
            rw [← he]
            simp [Option.isNone_iff_eq_none.mp hp]
          rw [this]
          simp
        · rw [if_neg he, ih, lookupF_cons, if_neg he]
      · rw [if_neg (by simpa using hp), ih, lookupF_cons]
        by_cases he : e.1 = f
        · have : (lookupF m1 f).isSome = true := by
            rw [← he]
            cases h : lookupF m1 e.1
            · rw [h] at hp; simp at hp
            · rfl
          rw [this]
          simp
        · rw [if_neg he]

theorem lookupF_mapUpdate (m1 m2 : MatchMap) (f : String) :
    lookupF (mapUpdate m1 m2) f =
      match lookupF m1 f, lookupF m2 f with
      | Option.some _, Option.some p2 => Option.some p2
      | Option.some p1, Option.none => Option.some p1
      | Option.none, o => o := by
  unfold mapUpdate
  rw [lookupF_append, lookupF_updateLeft, lookupF_filterRight]
  cases h1 : lookupF m1 f with
  | some p1 =>
      cases h2 : lookupF m2 f with
      | some p2 => simp [h1]
      | none => simp [h1]
  | none =>
      cases h2 : lookupF m2 f with
      | some p2 => simp [h1]
      | none => simp [h1]

theorem lookupF_mapSetPat_ne (m : MatchMap) (fld : String) (p : Pat) (f : String)
    (h : f ≠ fld) : lookupF (mapSetPat m fld p) f = lookupF m f := by
  induction m with
  | nil => rfl
  | cons e m ih =>
      simp only [mapSetPat, List.map_cons]
      by_cases hef : e.1 = fld
      · rw [if_pos hef, lookupF_cons, lookupF_cons]
        have hk : ¬ (fld, p).1 = f := fun hc => h (hc.symm)
        rw [if_neg hk, if_neg (fun hc : e.1 = f => h (hef ▸ hc).symm)]
        exact ih
      · rw [if_neg hef, lookupF_cons, lookupF_cons]
        by_cases hk : e.1 = f
        · rw [if_pos hk, if_pos hk]
        · rw [if_neg hk, if_neg hk]
          exact ih

theorem lookupF_mapSetPat_self (m : MatchMap) (fld : String) (p : Pat)
    (h : (lookupF m fld).isSome = true) :
    lookupF (mapSetPat m fld p) fld = Option.some p := by
  induction m with
  | nil => simp [lookupF] at h
  | cons e m ih =>
      simp only [mapSetPat, List.map_cons]
      by_cases hef : e.1 = fld
      · rw [if_pos hef, lookupF_cons, if_pos rfl]
      · rw [if_neg hef, lookupF_cons, if_neg hef]
        rw [lookupF_cons, if_neg hef] at h
        exact ih h

theorem overrideIp_not_shared (m1 m2 d : MatchMap) (fld : String)
    (h : lookupF m1 fld = Option.none ∨ lookupF m2 fld = Option.none) :
    overrideIp m1 m2 d fld = d := by
  unfold overrideIp
  rcases h with h | h
  · rw [h]
  · rw [h]
    cases lookupF m1 fld <;> rfl

theorem overrideIp_shared (m1 m2 d : MatchMap) (fld : String) {p1 p2 : Pat}
    (h1 : lookupF m1 fld = Option.some p1) (h2 : lookupF m2 fld = Option.some p2) :
    overrideIp m1 m2 d fld =
      match intersectIp p1 p2 with
      | Option.some p => mapSetPat d fld p
      | Option.none => d := by
  unfold overrideIp
  rw [h1, h2]

theorem lookupF_overrideIp_ne (m1 m2 d : MatchMap) (fld f : String) (h : f ≠ fld) :
    lookupF (overrideIp m1 m2 d fld) f = lookupF d f := by
  cases h1 : lookupF m1 fld with
  | none => rw [overrideIp_not_shared m1 m2 d fld (Or.inl h1)]
  | some p1 =>
      cases h2 : lookupF m2 fld with
      | none => rw [overrideIp_not_shared m1 m2 d fld (Or.inr h2)]
      | some p2 =>
          rw [overrideIp_shared m1 m2 d fld h1 h2]
          cases intersectIp p1 p2 with
          | none => rfl
          | some p => exact lookupF_mapSetPat_ne d fld p f h

theorem lookupF_overrideIp_self (m1 m2 d : MatchMap) (fld : String)
    {p1 p2 p : Pat} (h1 : lookupF m1 fld = Option.some p1)
    (h2 : lookupF m2 fld = Option.some p2) (hi : intersectIp p1 p2 = Option.some p)
    (hd : (lookupF d fld).isSome = true) :
    lookupF (overrideIp m1 m2 d fld) fld = Option.some p := by
  rw [overrideIp_shared m1 m2 d fld h1 h2, hi]
  exact lookupF_mapSetPat_self d fld p hd

theorem keys_mapSetPat (m : MatchMap) (fld : String) (p : Pat) :
    (mapSetPat m fld p).map Prod.fst = m.map Prod.fst := by
  unfold mapSetPat
  rw [List.map_map]
  apply List.map_congr_left
  intro kv _
  by_cases hk : kv.1 = fld
  · simp [hk]
  · simp [hk]

theorem keys_overrideIp (m1 m2 d : MatchMap) (fld : String) :
    (overrideIp m1 m2 d fld).map Prod.fst = d.map Prod.fst := by
  cases h1 : lookupF m1 fld with
  | none => rw [overrideIp_not_shared m1 m2 d fld (Or.inl h1)]
  | some p1 =>
      cases h2 : lookupF m2 fld with
      | none => rw [overrideIp_not_shared m1 m2 d fld (Or.inr h2)]
      | some p2 =>
          rw [overrideIp_shared m1 m2 d fld h1 h2]
          cases intersectIp p1 p2 with
          | none => rfl
          | some p => exact keys_mapSetPat d fld p

theorem keys_updateLeft (m1 m2 : MatchMap) :
    ((m1.map (fun kv =>
        match lookupF m2 kv.1 with
        | Option.some p => (kv.1, p)
        | Option.none => kv)).map Prod.fst) = m1.map Prod.fst := by
  rw [List.map_map]
  apply List.map_congr_left
  intro kv _
  simp only [Function.comp_apply]
  cases lookupF m2 kv.1 <;> rfl

theorem nodup_mapUpdate {m1 m2 : MatchMap}
    (h1 : (m1.map Prod.fst).Nodup) (h2 : (m2.map Prod.fst).Nodup) :
    ((mapUpdate m1 m2).map Prod.fst).Nodup := by
  unfold mapUpdate
  rw [List.map_append, keys_updateLeft]
  apply List.Nodup.append h1
  · exact ((List.filter_sublist m2).map Prod.fst).nodup h2
  · intro a ha hb
    rcases List.mem_map.mp hb with ⟨kv, hkv, hk⟩
    have hpred := List.of_mem_filter hkv
    have hsome : (lookupF m1 a).isSome = true := lookupF_isSome_iff.mpr ha
    have hnone : lookupF m1 kv.1 = Option.none := Option.isNone_iff_eq_none.mp hpred
    rw [hk] at hnone
    rw [hnone] at hsome
    cases hsome

/-- The drop condition of match.intersect: a shared non-IP field with
differing patterns, or a shared IP field whose prefixes are incomparable
(neither contains the other). -/
def IntersectClash (m1 m2 : MatchMap) : Prop :=
  ∃ f p1 p2, lookupF m1 f = Option.some p1 ∧ lookupF m2 f = Option.some p2 ∧
    ((isIpField f = false ∧ p1 ≠ p2) ∨
     (isIpField f = true ∧ ∃ c1 c2, p1 = Pat.cidr c1 ∧ p2 = Pat.cidr c2 ∧
        Cidr.containsNet c2 c1 = false ∧ Cidr.containsNet c1 c2 = false))

/-- The per-field content of the map built by match.intersect when the
meet is not drop. -/
def expectedPat (m1 m2 : MatchMap) (f : String) : Option Pat :=
  match lookupF m1 f, lookupF m2 f with
  | Option.some p1, Option.some p2 =>
      if isIpField f then intersectIp p1 p2 else Option.some p2
  | Option.some p1, Option.none => Option.some p1
  | Option.none, o => o

/-- The Boolean clash scan of matchIntersect. -/
def clashScan (m2 : MatchMap) (kv : String × Pat) : Bool :=
  match lookupF m2 kv.1 with
  | Option.none => false
  | Option.some p2 =>
      if isIpField kv.1 then (intersectIp kv.2 p2).isNone
      else kv.2 ≠ p2

theorem matchIntersect_eq_def (m1 m2 : MatchMap) :
    matchIntersect m1 m2 =
      if m2.isEmpty then Option.some m1
      else if m1.any (clashScan m2) then Option.none
      else Option.some (overrideIp m1 m2
        (overrideIp m1 m2 (mapUpdate m1 m2) "srcip") "dstip") := rfl

theorem intersectIp_cidr (c1 c2 : Cidr) :
    intersectIp (Pat.cidr c1) (Pat.cidr c2) =
      if Cidr.containsNet c2 c1 then Option.some (Pat.cidr c1)
      else if Cidr.containsNet c1 c2 then Option.some (Pat.cidr c2)
      else Option.none := rfl

theorem intersectIp_some_cases {p1 p2 p : Pat}
    (h : intersectIp p1 p2 = Option.some p) : p = p1 ∨ p = p2 := by
  cases p1 with
  | cidr c1 =>
      cases p2 with
      | cidr c2 =>
          rw [intersectIp_cidr] at h
          by_cases hcc : Cidr.containsNet c2 c1 = true
          · rw [if_pos hcc] at h
            exact Or.inl (Option.some.inj h).symm
          · rw [if_neg hcc] at h
            by_cases hcc2 : Cidr.containsNet c1 c2 = true
            · rw [if_pos hcc2] at h
              exact Or.inr (Option.some.inj h).symm
            · rw [if_neg hcc2] at h
              cases h
      | none => cases h
      | val v => cases h
  | none => cases h
  | val v => cases h

/-- Containment of prefixes gives containment of their address ranges. -/
theorem fieldPass_cidr_of_subset {pkt : Packet} {f : String} {c c' : Cidr}
    (h : Cidr.containsNet c' c = true)
    (hp : fieldPass pkt (f, Pat.cidr c) = true) :
    fieldPass pkt (f, Pat.cidr c') = true := by
  simp only [fieldPass] at hp ⊢
  cases hg : pkt.get f with
  | none => rw [hg] at hp; cases hp
  | some w =>
      rw [hg] at hp
      cases w with
      | num n => cases hp
      | ipv4 a =>
          have hb := of_decide_eq_true hp
          have hc := of_decide_eq_true h
          unfold Cidr.containsAddr
          unfold Cidr.containsNet at hc
          exact decide_eq_true (by omega)

/-- No clash at a shared field once matchIntersect returns a map. -/
theorem matchIntersect_some_noclash {m1 m2 : MatchMap} {d : MatchMap}
    (hd : matchIntersect m1 m2 = Option.some d) {f : String} {p1 p2 : Pat}
    (hl1 : lookupF m1 f = Option.some p1) (hl2 : lookupF m2 f = Option.some p2) :
    (isIpField f = true → ∃ p, intersectIp p1 p2 = Option.some p)
  ∧ (isIpField f = false → p1 = p2) := by
  rw [matchIntersect_eq_def] at hd
  by_cases hemp : m2.isEmpty
  · rw [List.isEmpty_iff.mp hemp] at hl2
    cases hl2
  · rw [if_neg hemp] at hd
    by_cases hany : m1.any (clashScan m2) = true
    · rw [if_pos hany] at hd
      cases hd
    · have hkv : clashScan m2 (f, p1) = false := by
        cases hb : clashScan m2 (f, p1)
        · rfl
        · exact absurd (List.any_eq_true.mpr ⟨(f, p1), lookupF_mem hl1, hb⟩) hany
      unfold clashScan at hkv
      rw [hl2] at hkv
      constructor
      · intro hip
        rw [hip] at hkv
        simp only [if_true] at hkv
        cases hi : intersectIp p1 p2 with
        | some p => exact ⟨p, rfl⟩
        | none => rw [hi] at hkv; cases hkv
      · intro hip
        rw [hip] at hkv
        simp only [Bool.false_eq_true, if_false] at hkv
        simpa using hkv

/-- The shape of the returned map. -/
theorem matchIntersect_some_cases {m1 m2 d : MatchMap}
    (hd : matchIntersect m1 m2 = Option.some d) :
    (m2 = [] ∧ d = m1)
  ∨ (d = overrideIp m1 m2 (overrideIp m1 m2 (mapUpdate m1 m2) "srcip") "dstip") := by
  rw [matchIntersect_eq_def] at hd
  by_cases hemp : m2.isEmpty
  · rw [if_pos hemp] at hd
    exact Or.inl ⟨List.isEmpty_iff.mp hemp, (Option.some.inj hd).symm⟩
  · rw [if_neg hemp] at hd
    by_cases hany : m1.any (clashScan m2) = true
    · rw [if_pos hany] at hd
      cases hd
    · rw [if_neg hany] at hd
      exact Or.inr (Option.some.inj hd).symm

/-- Contents of the returned map, field by field. -/
theorem lookupF_matchIntersect {m1 m2 d : MatchMap}
    (h1 : matchWf m1 = true) (h2 : matchWf m2 = true)
    (hd : matchIntersect m1 m2 = Option.some d) (f : String) :
    lookupF d f = expectedPat m1 m2 f := by
  rcases matchIntersect_some_cases hd with ⟨hm2, hdm⟩ | hdm
  · subst hm2
    rw [hdm]
    unfold expectedPat
    rw [show lookupF ([] : MatchMap) f = Option.none from rfl]
    cases h : lookupF m1 f with
    | some p => rfl
    | none => rfl
  · subst hdm
    have hsrcdst : ("srcip" : String) ≠ "dstip" := by decide
    by_cases hf1 : f = "srcip"
    · subst hf1
      rw [lookupF_overrideIp_ne _ _ _ _ _ hsrcdst]
      cases hl1 : lookupF m1 "srcip" with
      | none =>
          rw [overrideIp_not_shared _ _ _ _ (Or.inl hl1)]
          rw [lookupF_mapUpdate, hl1]
          unfold expectedPat
          rw [hl1]
      | some p1 =>
          cases hl2 : lookupF m2 "srcip" with
          | none =>
              rw [overrideIp_not_shared _ _ _ _ (Or.inr hl2)]
              rw [lookupF_mapUpdate, hl1, hl2]
              unfold expectedPat
              rw [hl1, hl2]
          | some p2 =>
              obtain ⟨p, hp⟩ := (matchIntersect_some_noclash hd hl1 hl2).1 rfl
              have hu : (lookupF (mapUpdate m1 m2) "srcip").isSome = true := by
                rw [lookupF_mapUpdate, hl1, hl2]
                rfl
              rw [lookupF_overrideIp_self m1 m2 _ _ hl1 hl2 hp hu]
              unfold expectedPat
              rw [hl1, hl2]
              simp only [isIpField]
              rw [hp]
              rfl
    · by_cases hf2 : f = "dstip"
      · subst hf2
        cases hl1 : lookupF m1 "dstip" with
        | none =>
            rw [overrideIp_not_shared _ _ _ _ (Or.inl hl1)]
            rw [lookupF_overrideIp_ne _ _ _ _ _ (fun hc => hsrcdst hc.symm)]
            rw [lookupF_mapUpdate, hl1]
            unfold expectedPat
            rw [hl1]
        | some p1 =>
            cases hl2 : lookupF m2 "dstip" with
            | none =>
                rw [overrideIp_not_shared _ _ _ _ (Or.inr hl2)]
                rw [lookupF_overrideIp_ne _ _ _ _ _ (fun hc => hsrcdst hc.symm)]
                rw [lookupF_mapUpdate, hl1, hl2]
                unfold expectedPat
                rw [hl1, hl2]
            | some p2 =>
                obtain ⟨p, hp⟩ := (matchIntersect_some_noclash hd hl1 hl2).1 rfl
                have hu : (lookupF (overrideIp m1 m2 (mapUpdate m1 m2) "srcip")
                    "dstip").isSome = true := by
                  rw [lookupF_overrideIp_ne _ _ _ _ _ (fun hc => hsrcdst hc.symm)]
                  rw [lookupF_mapUpdate, hl1, hl2]
                  rfl
                rw [lookupF_overrideIp_self m1 m2 _ _ hl1 hl2 hp hu]
                unfold expectedPat
                rw [hl1, hl2]
                simp only [isIpField]
                rw [hp]
                rfl
      · have hip : isIpField f = false := by
          unfold isIpField
          rw [decide_eq_false hf1, decide_eq_false hf2]
          rfl
        rw [lookupF_overrideIp_ne _ _ _ _ _ hf2, lookupF_overrideIp_ne _ _ _ _ _ hf1]
        rw [lookupF_mapUpdate]
        unfold expectedPat
        cases hl1 : lookupF m1 f with
        | none => rfl
        | some p1 =>
            cases hl2 : lookupF m2 f with
            | none => rfl
            | some p2 =>
                rw [hip]
                rfl

theorem nodup_matchIntersect {m1 m2 d : MatchMap}
    (h1 : matchWf m1 = true) (h2 : matchWf m2 = true)
    (hd : matchIntersect m1 m2 = Option.some d) :
    (d.map Prod.fst).Nodup := by
  rcases matchIntersect_some_cases hd with ⟨_, hdm⟩ | hdm
  · subst hdm
    exact matchWf_nodup h1
  · subst hdm
    rw [keys_overrideIp, keys_overrideIp]
    exact nodup_mapUpdate (matchWf_nodup h1) (matchWf_nodup h2)

/-- The packet-membership characterization of matchesMap through lookups,
for maps with distinct keys. -/
theorem matchesMap_iff_lookup {m : MatchMap} {pkt : Packet}
    (hn : (m.map Prod.fst).Nodup) :
    matchesMap m pkt = true ↔
      ∀ f p, lookupF m f = Option.some p → fieldPass pkt (f, p) = true := by
  rw [matchesMap, List.all_eq_true]
  constructor
  · intro h f p hl
    exact h (f, p) (lookupF_mem hl)
  · intro h fp hfp
    exact h fp.1 fp.2 (mem_lookupF hn hfp)

/-- C4: For well-formed match maps, intersect returns drop exactly when a
shared non-IP field differs or a shared IP field carries incomparable
CIDRs; otherwise it returns a match whose shared IP fields carry the more
specific of the two CIDRs, and a packet matches the result iff it matches
both operands. -/
theorem match_intersect_meet (m1 m2 : MatchMap)
    (h1 : matchWf m1 = true) (h2 : matchWf m2 = true) :
    (matchIntersect m1 m2 = Option.none ↔ IntersectClash m1 m2)
  ∧ (∀ d, matchIntersect m1 m2 = Option.some d →
      (∀ f c1 c2, lookupF m1 f = Option.some (Pat.cidr c1) →
          lookupF m2 f = Option.some (Pat.cidr c2) →
          lookupF d f = Option.some
            (Pat.cidr (if Cidr.containsNet c2 c1 then c1 else c2)))
      ∧ (∀ pkt : Packet, matchesMap d pkt = true ↔
          (matchesMap m1 pkt = true ∧ matchesMap m2 pkt = true))) := by
  constructor
  · rw [matchIntersect_eq_def]
    by_cases hemp : m2.isEmpty
    · rw [if_pos hemp]
      constructor
      · intro h
        cases h
      · rintro ⟨f, p1, p2, _, hl2, _⟩
        rw [List.isEmpty_iff.mp hemp] at hl2
        cases hl2
    · rw [if_neg hemp]
      by_cases hany : m1.any (clashScan m2) = true
      · rw [if_pos hany]
        constructor
        · intro _
          rcases List.any_eq_true.mp hany with ⟨kv, hkv, hscan⟩
          unfold clashScan at hscan
          cases hl2 : lookupF m2 kv.1 with
          | none => rw [hl2] at hscan; cases hscan
          | some p2 =>
              rw [hl2] at hscan
              refine ⟨kv.1, kv.2, p2, mem_lookupF (matchWf_nodup h1) hkv, hl2, ?_⟩
              by_cases hip : isIpField kv.1 = true
              · rw [hip] at hscan
                simp only [if_true] at hscan
                obtain ⟨c1, hc1, -⟩ := ((matchWf_at h1 hkv).1 hip)
                obtain ⟨c2, hc2, -⟩ := ((matchWf_at h2 (lookupF_mem hl2)).1 hip)
                refine Or.inr ⟨hip, c1, c2, hc1, hc2, ?_, ?_⟩
                · rw [hc1, hc2] at hscan
                  rw [intersectIp_cidr] at hscan
                  by_cases hcc : Cidr.containsNet c2 c1 = true
                  · rw [if_pos hcc] at hscan
                    cases hscan
                  · exact Bool.eq_false_iff.mpr hcc
                · rw [hc1, hc2] at hscan
                  rw [intersectIp_cidr] at hscan
                  by_cases hcc : Cidr.containsNet c2 c1 = true
                  · rw [if_pos hcc] at hscan
                    cases hscan
                  · rw [if_neg hcc] at hscan
                    by_cases hcc2 : Cidr.containsNet c1 c2 = true
                    · rw [if_pos hcc2] at hscan
                      cases hscan
                    · exact Bool.eq_false_iff.mpr hcc2
              · have hip2 : isIpField kv.1 = false := Bool.eq_false_iff.mpr hip
                rw [hip2] at hscan
                simp only [Bool.false_eq_true, if_false] at hscan
                exact Or.inl ⟨hip2, by simpa using hscan⟩
        · intro _
          rfl
      · rw [if_neg hany]
        constructor
        · intro h
          cases h
        · rintro ⟨f, p1, p2, hl1, hl2, hcase⟩
          exfalso
          apply hany
          refine List.any_eq_true.mpr ⟨(f, p1), lookupF_mem hl1, ?_⟩
          unfold clashScan
          rw [hl2]
          rcases hcase with ⟨hip, hne⟩ | ⟨hip, c1, c2, hc1, hc2, hn1, hn2⟩
          · rw [hip]
            simpa using hne
          · rw [hip]
            simp only [if_true]
            rw [hc1, hc2, intersectIp_cidr]
            rw [if_neg (fun hc => (Bool.eq_false_iff.mp hn1) hc),
                if_neg (fun hc => (Bool.eq_false_iff.mp hn2) hc)]
            rfl
  · intro d hd
    have hexp := lookupF_matchIntersect h1 h2 hd
    have hcidr : ∀ f c1 c2, lookupF m1 f = Option.some (Pat.cidr c1) →
        lookupF m2 f = Option.some (Pat.cidr c2) →
        lookupF d f = Option.some
          (Pat.cidr (if Cidr.containsNet c2 c1 then c1 else c2)) := by
      intro f c1 c2 hl1 hl2
      have hip : isIpField f = true := by
        cases hb : isIpField f
        · exact absurd rfl ((matchWf_at h1 (lookupF_mem hl1)).2 hb c1)
        · rfl
      obtain ⟨p, hp⟩ := (matchIntersect_some_noclash hd hl1 hl2).1 hip
      rw [hexp f]
      unfold expectedPat
      rw [hl1, hl2, hip]
      simp only [if_true]
      rw [intersectIp_cidr]
      by_cases hcc : Cidr.containsNet c2 c1 = true
      · rw [if_pos hcc, if_pos hcc]
      · rw [if_neg hcc, if_neg hcc]
        rw [intersectIp_cidr] at hp
        rw [if_neg hcc] at hp
        by_cases hcc2 : Cidr.containsNet c1 c2 = true
        · rw [if_pos hcc2]
        · rw [if_neg hcc2] at hp
          cases hp
    refine ⟨hcidr, ?_⟩
    intro pkt
    rw [matchesMap_iff_lookup (nodup_matchIntersect h1 h2 hd),
        matchesMap_iff_lookup (matchWf_nodup h1),
        matchesMap_iff_lookup (matchWf_nodup h2)]
    constructor
    · intro h
      constructor
      · intro f p1 hl1
        cases hl2 : lookupF m2 f with
        | none =>
            apply h f p1
            rw [hexp f]
            unfold expectedPat
            rw [hl1, hl2]
        | some p2 =>
            by_cases hip : isIpField f = true
            · obtain ⟨c1, hc1, -⟩ := (matchWf_at h1 (lookupF_mem hl1)).1 hip
              obtain ⟨c2, hc2, -⟩ := (matchWf_at h2 (lookupF_mem hl2)).1 hip
              subst hc1
              subst hc2
              have hpass := h f _ (hcidr f c1 c2 hl1 hl2)
              by_cases hcc : Cidr.containsNet c2 c1 = true
              · rw [if_pos hcc] at hpass
                exact hpass
              · rw [if_neg hcc] at hpass
                obtain ⟨p, hp⟩ := (matchIntersect_some_noclash hd hl1 hl2).1 hip
                rw [intersectIp_cidr] at hp
                rw [if_neg hcc] at hp
                by_cases hcc2 : Cidr.containsNet c1 c2 = true
                · exact fieldPass_cidr_of_subset hcc2 hpass
                · rw [if_neg hcc2] at hp
                  cases hp
            · have hip2 : isIpField f = false := Bool.eq_false_iff.mpr hip
              have hpp : p1 = p2 := (matchIntersect_some_noclash hd hl1 hl2).2 hip2
              apply h f p1
              rw [hexp f]
              unfold expectedPat
              rw [hl1, hl2, hip2]
              simp only [Bool.false_eq_true, if_false]
              rw [hpp]
      · intro f p2 hl2
        cases hl1 : lookupF m1 f with
        | none =>
            apply h f p2
            rw [hexp f]
            unfold expectedPat
            rw [hl1, hl2]
        | some p1 =>
            by_cases hip : isIpField f = true
            · obtain ⟨c1, hc1, -⟩ := (matchWf_at h1 (lookupF_mem hl1)).1 hip
              obtain ⟨c2, hc2, -⟩ := (matchWf_at h2 (lookupF_mem hl2)).1 hip
              subst hc1
              subst hc2
              have hpass := h f _ (hcidr f c1 c2 hl1 hl2)
              by_cases hcc : Cidr.containsNet c2 c1 = true
              · rw [if_pos hcc] at hpass
                exact fieldPass_cidr_of_subset hcc hpass
              · rw [if_neg hcc] at hpass
                exact hpass
            · have hip2 : isIpField f = false := Bool.eq_false_iff.mpr hip
              have hpp : p1 = p2 := (matchIntersect_some_noclash hd hl1 hl2).2 hip2
              apply h f p2
              rw [hexp f]
              unfold expectedPat
              rw [hl1, hl2, hip2]
              simp only [Bool.false_eq_true, if_false]
    · rintro ⟨hA, hB⟩ f p hdl
      rw [hexp f] at hdl
      unfold expectedPat at hdl
      cases hl1 : lookupF m1 f with
      | none =>
          rw [hl1] at hdl
          exact hB f p hdl
      | some p1 =>
          rw [hl1] at hdl
          cases hl2 : lookupF m2 f with
          | none =>
              rw [hl2] at hdl
              have hpp : p1 = p := Option.some.inj hdl
              subst hpp
              exact hA f p1 hl1
          | some p2 =>
              rw [hl2] at hdl
              by_cases hip : isIpField f = true
              · rw [hip] at hdl
                simp only [if_true] at hdl
                rcases intersectIp_some_cases hdl with hp | hp
                · subst hp
                  exact hA f p hl1
                · subst hp
                  exact hB f p hl2
              · rw [Bool.eq_false_iff.mpr hip] at hdl
                simp only [Bool.false_eq_true, if_false] at hdl
                have hpp : p = p2 := (Option.some.inj hdl).symm
                subst hpp
                exact hB f p hl2

/-- Witness for C4: spec scenario 3, intersect of srcip 10.0.0.0/8 and
srcip 10.1.0.0/16, applied through the theorem. -/
theorem match_intersect_meet_witness :
    matchWf [("srcip", Pat.cidr (Cidr.mk 167772160 8))] = true
  ∧ matchWf [("srcip", Pat.cidr (Cidr.mk 167837696 16))] = true
  ∧ (matchIntersect [("srcip", Pat.cidr (Cidr.mk 167772160 8))]
        [("srcip", Pat.cidr (Cidr.mk 167837696 16))] = Option.none ↔
      IntersectClash [("srcip", Pat.cidr (Cidr.mk 167772160 8))]
        [("srcip", Pat.cidr (Cidr.mk 167837696 16))]) :=
  ⟨by decide, by decide,
   (match_intersect_meet _ _ (by decide) (by decide)).1⟩

theorem lookupEntry_cons (e : MatchEntry × MatchStatus)
    (ms : List (MatchEntry × MatchStatus)) (k : MatchEntry) :
    lookupEntry (e :: ms) k =
      if e.1 = k then Option.some e.2 else lookupEntry ms k := by
  by_cases he : e.1 = k
  · rw [if_pos he]
    unfold lookupEntry
    rw [List.find?_cons]
    have hd : decide (e.1 = k) = true := by simp [he]
    simp [hd]
  · rw [if_neg he]
    unfold lookupEntry
    rw [List.find?_cons]
    have hd : decide (e.1 = k) = false := by simp [he]
    simp [hd]

theorem eraseEntry_cons (e : MatchEntry × MatchStatus)
    (ms : List (MatchEntry × MatchStatus)) (k : MatchEntry) :
    eraseEntry (e :: ms) k =
      if e.1 = k then eraseEntry ms k else e :: eraseEntry ms k := by
  by_cases he : e.1 = k
  · simp [eraseEntry, List.filter_cons, he]
  · simp [eraseEntry, List.filter_cons, he]

theorem lookupEntry_erase_self (ms : List (MatchEntry × MatchStatus)) (k : MatchEntry) :
    lookupEntry (eraseEntry ms k) k = Option.none := by
  induction ms with
  | nil => rfl
  | cons e ms ih =>
      rw [eraseEntry_cons]
      by_cases he : e.1 = k
      · rw [if_pos he]
        exact ih
      · rw [if_neg he, lookupEntry_cons, if_neg he]
        exact ih

theorem lookupEntry_erase_ne (ms : List (MatchEntry × MatchStatus)) (k k' : MatchEntry)
    (h : k' ≠ k) : lookupEntry (eraseEntry ms k) k' = lookupEntry ms k' := by
  induction ms with
  | nil => rfl
  | cons e ms ih =>
      rw [eraseEntry_cons, lookupEntry_cons]
      by_cases he : e.1 = k
      · rw [if_pos he]
        have hne : ¬ e.1 = k' := by
          rw [he]
          exact fun hc => h hc.symm
        rw [if_neg hne]
        exact ih
      · rw [if_neg he, lookupEntry_cons]
        by_cases he' : e.1 = k'
        · rw [if_pos he', if_pos he']
        · rw [if_neg he', if_neg he']
          exact ih

/-- C7: For a handle_flow_removed call whose (match, priority, version) key
is present in the bucket's matches: if the entry is not marked
to_be_deleted the runtime contract is violated and the assert fires; if it
is marked, the final counters are added to the persistent counters exactly
when the entry is not a pre-existing rule, and the entry is deleted from
matches while all other entries are untouched. -/
theorem handle_flow_removed_contract (b : CountBucketSt) (m : MatchMap)
    (pr ver : Nat) (pc bc : Int) (st : MatchStatus)
    (h : lookupEntry b.bmatches (MatchEntry.mk m pr ver) = Option.some st) :
    (st.to_be_deleted = false →
        handle_flow_removed b m pr ver pc bc = Except.error BucketErr.assertionError)
  ∧ (st.to_be_deleted = true →
        ∃ b', handle_flow_removed b m pr ver pc bc = Except.ok b'
          ∧ b'.packet_count_persistent =
              b.packet_count_persistent + (if st.existing_rule then 0 else pc)
          ∧ b'.byte_count_persistent =
              b.byte_count_persistent + (if st.existing_rule then 0 else bc)
          ∧ lookupEntry b'.bmatches (MatchEntry.mk m pr ver) = Option.none
          ∧ ∀ k', k' ≠ MatchEntry.mk m pr ver →
              lookupEntry b'.bmatches k' = lookupEntry b.bmatches k') := by
  constructor
  · intro hst
    simp [handle_flow_removed, h, hst]
  · intro hst
    refine ⟨{ b with
        packet_count_persistent :=
          b.packet_count_persistent + (if st.existing_rule then 0 else pc),
        byte_count_persistent :=
          b.byte_count_persistent + (if st.existing_rule then 0 else bc),
        bmatches := eraseEntry b.bmatches (MatchEntry.mk m pr ver) },
      ?_, rfl, rfl, ?_, ?_⟩
    · simp [handle_flow_removed, h, hst]
    · exact lookupEntry_erase_self b.bmatches (MatchEntry.mk m pr ver)
    · intro k' hk'
      exact lookupEntry_erase_ne b.bmatches (MatchEntry.mk m pr ver) k' hk'

/-- Witness for C7: a concrete bucket holding one marked, non-pre-existing
entry, applied through the theorem. -/
theorem handle_flow_removed_contract_witness :
    MatchStatus.to_be_deleted (MatchStatus.mk true false) = true
  ∧ ∃ b', handle_flow_removed
        (CountBucketSt.mk
          [(MatchEntry.mk [("switch", Pat.val (Val.num 1))] 5 3,
            MatchStatus.mk true false)] 0 0 7 70 [])
        [("switch", Pat.val (Val.num 1))] 5 3 100 2000 = Except.ok b'
      ∧ b'.packet_count_persistent = 7 + (if (MatchStatus.mk true false).existing_rule then 0 else 100)
      ∧ b'.byte_count_persistent = 70 + (if (MatchStatus.mk true false).existing_rule then 0 else 2000)
      ∧ lookupEntry b'.bmatches
          (MatchEntry.mk [("switch", Pat.val (Val.num 1))] 5 3) = Option.none
      ∧ ∀ k', k' ≠ MatchEntry.mk [("switch", Pat.val (Val.num 1))] 5 3 →
          lookupEntry b'.bmatches k' = lookupEntry
            (CountBucketSt.mk
              [(MatchEntry.mk [("switch", Pat.val (Val.num 1))] 5 3,
                MatchStatus.mk true false)] 0 0 7 70 []).bmatches k' :=
  ⟨rfl,
   (handle_flow_removed_contract
      (CountBucketSt.mk
        [(MatchEntry.mk [("switch", Pat.val (Val.num 1))] 5 3,
          MatchStatus.mk true false)] 0 0 7 70 [])
      [("switch", Pat.val (Val.num 1))] 5 3 100 2000
      (MatchStatus.mk true false) rfl).2 rfl⟩

/-- C8: evaluating the stats-reply handler of the source on a reply entry
whose bucket entry carries the existing_rule flag crashes (the malformed
logging format string raises a TypeError before the intended subtraction
and flag clearing, which is itself broken by the undefined name k in
clear_existing_rule_flag); the same reply against an entry without the
flag adds the counts to the reported counters, removes the switch from
the outstanding list and reports readiness to fire callbacks. -/
theorem handle_flow_stats_reply_existing_rule_crash :
    handle_flow_stats_reply
        (CountBucketSt.mk
          [(MatchEntry.mk [("dstport", Pat.val (Val.num 80)),
                           ("switch", Pat.val (Val.num 1))] 5 3,
            MatchStatus.mk false true)] 0 0 7 70 [1])
        1 [FlowStatRec.mk (Option.some [("dstport", Pat.val (Val.num 80))]) 5 3 100 2000]
      = Except.error BucketErr.logFormatTypeError
  ∧ handle_flow_stats_reply
        (CountBucketSt.mk
          [(MatchEntry.mk [("dstport", Pat.val (Val.num 80)),
                           ("switch", Pat.val (Val.num 1))] 5 3,
            MatchStatus.mk false false)] 0 0 7 70 [1])
        1 [FlowStatRec.mk (Option.some [("dstport", Pat.val (Val.num 80))]) 5 3 100 2000]
      = Except.ok
          (CountBucketSt.mk
            [(MatchEntry.mk [("dstport", Pat.val (Val.num 80)),
                             ("switch", Pat.val (Val.num 1))] 5 3,
              MatchStatus.mk false false)] 107 2070 7 70 [], true) := by
  constructor
  · rfl
  · rfl

/-! Dynamic policy caches. -/

/-- Counterexample to C9 as stated: with no notification callback attached
(the state after construction or detach), replacing the inner policy of a
DynamicPolicy leaves its cached classifier in place, so the next compile
returns the classifier computed from the replaced match policy, not that
of the new drop policy. -/
theorem dynamic_policy_stale_cache :
    (dynCompile (policy_setter []
        (dynCompile (DynNode.mk (Pol.matchP [("dstport", Pat.val (Val.num 80))])
          Option.none false)).1 Pol.drop).2).2 =
      generate_classifier_leaf (Pol.matchP [("dstport", Pat.val (Val.num 80))])
  ∧ generate_classifier_leaf (Pol.matchP [("dstport", Pat.val (Val.num 80))]) ≠
      generate_classifier_leaf Pol.drop := by
  constructor
  · rfl
  · intro h
    simp [generate_classifier_leaf] at h

/-- C9 (amended): replacing the inner policy of a DynamicPolicy fires the
attached notification callback, and invalidation is the subscriber's work:
when the runtime's handler is attached (it nulls the cached classifiers of
the node and of every subscribed ancestor), a subsequent compile of the
ancestor chain returns the classifier of the new inner policy; the setter
itself never clears a cache, so without a subscriber the stale classifier
of the replaced policy is returned. -/
theorem dynamic_policy_invalidation (parents : List DerivedNode) (d : DynNode)
    (p : Pol) (h : d.notifyAttached = true) :
    (chainCompile (policy_setter parents d p).1 (policy_setter parents d p).2).2.2 =
      generate_classifier_leaf p := by
  simp only [policy_setter, h, if_true]
  induction parents with
  | nil => simp [chainCompile, dynCompile]
  | cons n rest ih => simpa [chainCompile, List.map_cons] using ih

/-- Witness for C9 (amended): a cached ancestor over a cached dynamic node
with the callback attached recompiles to the new policy's classifier. -/
theorem dynamic_policy_invalidation_witness :
    (chainCompile
        (policy_setter [DerivedNode.mk (Option.some [CRule.mk Pol.identity [Pol.identity]])]
          (DynNode.mk Pol.identity
            (Option.some [CRule.mk Pol.identity [Pol.identity]]) true) Pol.drop).1
        (policy_setter [DerivedNode.mk (Option.some [CRule.mk Pol.identity [Pol.identity]])]
          (DynNode.mk Pol.identity
            (Option.some [CRule.mk Pol.identity [Pol.identity]]) true) Pol.drop).2).2.2 =
      generate_classifier_leaf Pol.drop :=
  dynamic_policy_invalidation _ _ _ rfl

/-! The CharacterGenerator disjointness development. -/

theorem newTokenFrom_gt : ∀ t : Nat, t < newTokenFrom t
  | t => by
      rw [newTokenFrom]
      split
      · next h =>
          exact Nat.lt_trans (Nat.lt_succ_self t) (newTokenFrom_gt (t + 1))
      · exact Nat.lt_succ_self t
termination_by t => 126 - t
decreasing_by
  rename_i h
  have := lexerTokens_le h
  omega

theorem lookupTok_cons {β : Type} (e : Nat × β) (l : List (Nat × β)) (t : Nat) :
    lookupTok (e :: l) t = if e.1 = t then Option.some e.2 else lookupTok l t := by
  by_cases he : e.1 = t
  · rw [if_pos he]
    unfold lookupTok
    rw [List.find?_cons]
    have hd : decide (e.1 = t) = true := by simp [he]
    simp [hd]
  · rw [if_neg he]
    unfold lookupTok
    rw [List.find?_cons]
    have hd : decide (e.1 = t) = false := by simp [he]
    simp [hd]

theorem lookupTok_append {β : Type} (l1 l2 : List (Nat × β)) (t : Nat) :
    lookupTok (l1 ++ l2) t =
      match lookupTok l1 t with
      | Option.some v => Option.some v
      | Option.none => lookupTok l2 t := by
  induction l1 with
  | nil => rfl
  | cons e l1 ih =>
      rw [List.cons_append, lookupTok_cons, lookupTok_cons]
      by_cases he : e.1 = t
      · rw [if_pos he, if_pos he]
      · rw [if_neg he, if_neg he, ih]

theorem lookupTok_mem {β : Type} {l : List (Nat × β)} {t : Nat} {v : β}
    (h : lookupTok l t = Option.some v) : (t, v) ∈ l := by
  induction l with
  | nil => cases h
  | cons e l ih =>
      rw [lookupTok_cons] at h
      by_cases he : e.1 = t
      · rw [if_pos he] at h
        have hv : e.2 = v := Option.some.inj h
        have hev : e = (t, v) := by rw [← he, ← hv]
        rw [← hev]
        exact List.mem_cons_self e l
      · rw [if_neg he] at h
        exact List.mem_cons_of_mem e (ih h)

theorem mem_lookupTok {β : Type} {l : List (Nat × β)}
    (hn : (l.map Prod.fst).Nodup) {t : Nat} {v : β} (h : (t, v) ∈ l) :
    lookupTok l t = Option.some v := by
  induction l with
  | nil => cases h
  | cons e l ih =>
      rw [List.map_cons, List.nodup_cons] at hn
      rw [lookupTok_cons]
      rcases List.mem_cons.mp h with he | hm
      · rw [← he]
        simp
      · have hf : t ∈ l.map Prod.fst := List.mem_map.mpr ⟨(t, v), hm, rfl⟩
        have hne : ¬ e.1 = t := fun hc => hn.1 (hc ▸ hf)
        rw [if_neg hne]
        exact ih hn.2 hm

theorem lookupTok_eq_none {β : Type} {l : List (Nat × β)} {t : Nat} :
    lookupTok l t = Option.none ↔ t ∉ l.map Prod.fst := by
  induction l with
  | nil => simp [lookupTok]
  | cons e l ih =>
      rw [lookupTok_cons, List.map_cons]
      by_cases he : e.1 = t
      · rw [if_pos he]
        simp [he]
      · rw [if_neg he]
        rw [ih]
        simp only [List.mem_cons]
        constructor
        · intro h hc
          rcases hc with hc | hc
          · exact he hc.symm
          · exact h hc
        · intro h hc
          exact h (Or.inr hc)

theorem lookupTok_filter_ne {β : Type} (l : List (Nat × β)) (tok t : Nat)
    (h : ¬ t = tok) :
    lookupTok (l.filter (fun kv => ¬ kv.1 = tok)) t = lookupTok l t := by
  induction l with
  | nil => rfl
  | cons e l ih =>
      rw [List.filter_cons]
      by_cases he : e.1 = tok
      · rw [if_neg (by simp [he]), lookupTok_cons,
            if_neg (fun hc : e.1 = t => h ((hc ▸ he : t = tok)))]
        exact ih
      · rw [if_pos (by simp [he]), lookupTok_cons, lookupTok_cons]
        by_cases het : e.1 = t
        · rw [if_pos het, if_pos het]
        · rw [if_neg het, if_neg het]
          exact ih

theorem lookupTok_filter_self {β : Type} (l : List (Nat × β)) (tok : Nat) :
    lookupTok (l.filter (fun kv => ¬ kv.1 = tok)) tok = Option.none := by
  induction l with
  | nil => rfl
  | cons e l ih =>
      rw [List.filter_cons]
      by_cases he : e.1 = tok
      · rw [if_neg (by simp [he])]
        exact ih
      · rw [if_pos (by simp [he]), lookupTok_cons, if_neg he]
        exact ih

theorem lookupFilter_mem {l : List (Nat × Finset α)} {f : Finset α} {t : Nat}
    (h : lookupFilter l f = Option.some t) : (t, f) ∈ l := by
  induction l with
  | nil => cases h
  | cons e l ih =>
      unfold lookupFilter at h
      rw [List.find?_cons] at h
      by_cases he : e.2 = f
      · rw [show decide (e.2 = f) = true by simp [he]] at h
        simp only [Option.map_some] at h
        have ht : e.1 = t := Option.some.inj h
        have hef : e = (t, f) := by rw [← ht, ← he]
        rw [← hef]
        exact List.mem_cons_self e l
      · rw [show decide (e.2 = f) = false by simp [he]] at h
        exact List.mem_cons_of_mem e (ih h)

theorem lookupFilter_eq_none {l : List (Nat × Finset α)} {f : Finset α}
    (h : lookupFilter l f = Option.none) : ∀ kv ∈ l, kv.2 ≠ f := by
  induction l with
  | nil => intro kv hkv; cases hkv
  | cons e l ih =>
      unfold lookupFilter at h
      rw [List.find?_cons] at h
      by_cases he : e.2 = f
      · rw [show decide (e.2 = f) = true by simp [he]] at h
        cases h
      · rw [show decide (e.2 = f) = false by simp [he]] at h
        intro kv hkv
        rcases List.mem_cons.mp hkv with hk | hk
        · rw [hk]
          exact he
        · exact ih h kv hk

theorem mem_unionOf {l : List (Finset α)} {a : α} :
    a ∈ unionOf l ↔ ∃ f ∈ l, a ∈ f := by
  induction l with
  | nil => simp [unionOf]
  | cons g l ih =>
      simp only [unionOf, List.foldr_cons, Finset.mem_union]
      rw [show l.foldr (fun f acc => f ∪ acc) ∅ = unionOf l from rfl, ih]
      simp

theorem unionOf_append (l1 l2 : List (Finset α)) :
    unionOf (l1 ++ l2) = unionOf l1 ∪ unionOf l2 := by
  ext a
  simp only [Finset.mem_union, mem_unionOf]
  constructor
  · rintro ⟨f, hf, ha⟩
    rcases List.mem_append.mp hf with h | h
    · exact Or.inl ⟨f, h, ha⟩
    · exact Or.inr ⟨f, h, ha⟩
  · rintro (⟨f, hf, ha⟩ | ⟨f, hf, ha⟩)
    · exact ⟨f, List.mem_append.mpr (Or.inl hf), ha⟩
    · exact ⟨f, List.mem_append.mpr (Or.inr hf), ha⟩

theorem mem_leavesUnion {s : CGState α} {a : α} :
    a ∈ leavesUnion s ↔ ∃ kv ∈ s.tokenToFilter, a ∈ kv.2 := by
  unfold leavesUnion
  rw [mem_unionOf]
  constructor
  · rintro ⟨f, hf, ha⟩
    rcases List.mem_map.mp hf with ⟨kv, hkv, hk⟩
    exact ⟨kv, hkv, hk ▸ ha⟩
  · rintro ⟨kv, hkv, ha⟩
    exact ⟨kv.2, List.mem_map.mpr ⟨kv, hkv, rfl⟩, ha⟩

theorem foldl_union_eq_unionOf (g : Nat → Finset α) (ts : List Nat) :
    ∀ acc : Finset α,
      ts.foldl (fun acc u => acc ∪ g u) acc = acc ∪ unionOf (ts.map g) := by
  induction ts with
  | nil => intro acc; simp [unionOf]
  | cons u ts ih =>
      intro acc
      rw [List.foldl_cons, ih, List.map_cons]
      rw [show unionOf (g u :: ts.map g) = g u ∪ unionOf (ts.map g) from rfl]
      rw [Finset.union_assoc]

/-- Invariant of the CharacterGenerator state. -/
structure CGInv (s : CGState α) : Prop where
  leafLt : ∀ kv ∈ s.tokenToFilter, kv.1 ≤ s.token
  aliasKeyLt : ∀ kv ∈ s.tokenToTokens, kv.1 ≤ s.token
  aliasTgtLt : ∀ kv ∈ s.tokenToTokens, ∀ u ∈ kv.2, u ≤ s.token
  leafKeysNodup : (s.tokenToFilter.map Prod.fst).Nodup
  aliasKeysNodup : (s.tokenToTokens.map Prod.fst).Nodup
  leafFiltersNodup : (s.tokenToFilter.map Prod.snd).Nodup
  notBoth : ∀ kv ∈ s.tokenToFilter, lookupTok s.tokenToTokens kv.1 = Option.none
  leavesDisj : s.tokenToFilter.Pairwise (fun a b => a.2 ∩ b.2 = ∅)
  aliasDen : ∀ kv ∈ s.tokenToTokens, ∃ g, Denotes s kv.1 g

/-- Monotonicity of the denotation relation along a state transition that
keeps old leaves denoting and preserves alias entries. -/
theorem Denotes.mono {s s' : CGState α}
    (hleaf : ∀ t f, lookupTok s.tokenToFilter t = Option.some f → Denotes s' t f)
    (halias : ∀ t ts, lookupTok s.tokenToFilter t = Option.none →
        lookupTok s.tokenToTokens t = Option.some ts →
        lookupTok s'.tokenToFilter t = Option.none ∧
        lookupTok s'.tokenToTokens t = Option.some ts) :
    ∀ t f, Denotes s t f → Denotes s' t f := by
  intro t f h
  induction h with
  | leaf t f hl => exact hleaf t f hl
  | expand t ts g hnone hts hne hrec ih =>
      obtain ⟨h1, h2⟩ := halias t ts hnone hts
      exact Denotes.expand t ts g h1 h2 hne (fun u hu => ih u hu)

theorem leaf_eq_of_keys_nodup {β : Type} {l : List (Nat × β)}
    (hn : (l.map Prod.fst).Nodup) {k : Nat} {a b : β}
    (h1 : (k, a) ∈ l) (h2 : (k, b) ∈ l) : a = b := by
  have ha := mem_lookupTok hn h1
  have hb := mem_lookupTok hn h2
  rw [ha] at hb
  exact Option.some.inj hb

theorem leavesDisj_forall {s : CGState α} (hinv : CGInv s) :
    ∀ a ∈ s.tokenToFilter, ∀ b ∈ s.tokenToFilter, a ≠ b → a.2 ∩ b.2 = ∅ := by
  intro a ha b hb hab
  exact List.Pairwise.forall
    (fun x y h => by rw [Finset.inter_comm]; exact h)
    hinv.leavesDisj ha hb hab

/-! Facts about one split step. -/

theorem splitOne_token (s : CGState α) (tok : Nat) (ef nf : Finset α) :
    (splitOne s tok ef nf).token = splitTok2 s := rfl

theorem splitOne_leaves (s : CGState α) (tok : Nat) (ef nf : Finset α) :
    (splitOne s tok ef nf).tokenToFilter =
      (s.tokenToFilter.filter (fun kv => ¬ kv.1 = tok))
        ++ [(newTokenFrom s.token, ef \ nf)] ++ [(splitTok2 s, ef ∩ nf)] := rfl

theorem splitOne_aliases (s : CGState α) (tok : Nat) (ef nf : Finset α) :
    (splitOne s tok ef nf).tokenToTokens =
      s.tokenToTokens ++ [(tok, [newTokenFrom s.token, splitTok2 s])] := rfl

theorem splitTok2_gt (s : CGState α) : s.token < splitTok2 s :=
  Nat.lt_trans (newTokenFrom_gt s.token) (newTokenFrom_gt (newTokenFrom s.token))

theorem newTokenFrom_lt_splitTok2 (s : CGState α) :
    newTokenFrom s.token < splitTok2 s := newTokenFrom_gt (newTokenFrom s.token)

theorem splitOne_lookup_old {s : CGState α} (hinv : CGInv s)
    {tok : Nat} {ef nf : Finset α} {t : Nat} {g : Finset α}
    (hl : lookupTok s.tokenToFilter t = Option.some g) (hne : ¬ t = tok) :
    lookupTok (splitOne s tok ef nf).tokenToFilter t = Option.some g := by
  rw [splitOne_leaves, lookupTok_append, lookupTok_append,
      lookupTok_filter_ne _ _ _ hne, hl]

theorem splitOne_lookup_t1 {s : CGState α} (hinv : CGInv s)
    (tok : Nat) (ef nf : Finset α) :
    lookupTok (splitOne s tok ef nf).tokenToFilter (newTokenFrom s.token) =
      Option.some (ef \ nf) := by
  rw [splitOne_leaves, lookupTok_append, lookupTok_append]
  have hfil : lookupTok (s.tokenToFilter.filter (fun kv => ¬ kv.1 = tok))
      (newTokenFrom s.token) = Option.none := by
    rw [lookupTok_eq_none]
    intro hc
    rcases List.mem_map.mp hc with ⟨kv, hkv, hk⟩
    have hle := hinv.leafLt kv (List.mem_of_mem_filter hkv)
    have := newTokenFrom_gt s.token
    omega
  rw [hfil]
  rw [lookupTok_cons]
  simp

theorem splitOne_lookup_t2 {s : CGState α} (hinv : CGInv s)
    (tok : Nat) (ef nf : Finset α) :
    lookupTok (splitOne s tok ef nf).tokenToFilter (splitTok2 s) =
      Option.some (ef ∩ nf) := by
  rw [splitOne_leaves, lookupTok_append, lookupTok_append]
  have hfil : lookupTok (s.tokenToFilter.filter (fun kv => ¬ kv.1 = tok))
      (splitTok2 s) = Option.none := by
    rw [lookupTok_eq_none]
    intro hc
    rcases List.mem_map.mp hc with ⟨kv, hkv, hk⟩
    have hle := hinv.leafLt kv (List.mem_of_mem_filter hkv)
    have := splitTok2_gt s
    omega
  rw [hfil]
  rw [lookupTok_cons,
      if_neg (fun hc : newTokenFrom s.token = splitTok2 s =>
        absurd hc (Nat.ne_of_lt (newTokenFrom_lt_splitTok2 s)))]
  simp [lookupTok]

theorem splitOne_lookup_tok {s : CGState α} (hinv : CGInv s)
    {tok : Nat} (ef nf : Finset α) (hmem : (tok, ef) ∈ s.tokenToFilter) :
    lookupTok (splitOne s tok ef nf).tokenToFilter tok = Option.none := by
  have htokle : tok ≤ s.token := hinv.leafLt (tok, ef) hmem
  rw [splitOne_leaves, lookupTok_append, lookupTok_append, lookupTok_filter_self]
  have h1 : ¬ newTokenFrom s.token = tok := by
    have := newTokenFrom_gt s.token
    omega
  have h2 : ¬ splitTok2 s = tok := by
    have := splitTok2_gt s
    omega
  rw [lookupTok_cons, if_neg h1]
  rw [show lookupTok ([] : List (Nat × Finset α)) tok = Option.none from rfl]
  rw [lookupTok_cons, if_neg h2]
  rfl

theorem splitOne_alias_tok {s : CGState α} (hinv : CGInv s)
    {tok : Nat} (ef nf : Finset α) (hmem : (tok, ef) ∈ s.tokenToFilter) :
    lookupTok (splitOne s tok ef nf).tokenToTokens tok =
      Option.some [newTokenFrom s.token, splitTok2 s] := by
  rw [splitOne_aliases, lookupTok_append, hinv.notBoth (tok, ef) hmem]
  rw [lookupTok_cons]
  simp

theorem splitOne_alias_old {s : CGState α} {tok : Nat} {ef nf : Finset α}
    {t : Nat} {ts : List Nat}
    (hl : lookupTok s.tokenToTokens t = Option.some ts) :
    lookupTok (splitOne s tok ef nf).tokenToTokens t = Option.some ts := by
  rw [splitOne_aliases, lookupTok_append, hl]

theorem splitOne_leaf_char {s : CGState α} {tok : Nat} {ef nf : Finset α}
    {kv : Nat × Finset α} (h : kv ∈ (splitOne s tok ef nf).tokenToFilter) :
    (kv ∈ s.tokenToFilter ∧ ¬ kv.1 = tok)
  ∨ kv = (newTokenFrom s.token, ef \ nf) ∨ kv = (splitTok2 s, ef ∩ nf) := by
  rw [splitOne_leaves] at h
  rcases List.mem_append.mp h with h | h
  · rcases List.mem_append.mp h with h | h
    · rcases List.mem_filter.mp h with ⟨hm, hp⟩
      exact Or.inl ⟨hm, of_decide_eq_true hp⟩
    · exact Or.inr (Or.inl (List.mem_singleton.mp h))
  · exact Or.inr (Or.inr (List.mem_singleton.mp h))

theorem splitOne_denotes_tok {s : CGState α} (hinv : CGInv s)
    {tok : Nat} {ef : Finset α} (nf : Finset α)
    (hmem : (tok, ef) ∈ s.tokenToFilter) :
    Denotes (splitOne s tok ef nf) tok ef := by
  have h1 := splitOne_lookup_t1 hinv tok ef nf
  have h2 := splitOne_lookup_t2 hinv tok ef nf
  have hnone := splitOne_lookup_tok hinv ef nf hmem
  have halias := splitOne_alias_tok hinv ef nf hmem
  have hne12 : newTokenFrom s.token ≠ splitTok2 s :=
    Nat.ne_of_lt (newTokenFrom_lt_splitTok2 s)
  have hrec : ∀ u ∈ [newTokenFrom s.token, splitTok2 s],
      Denotes (splitOne s tok ef nf) u
        (if u = newTokenFrom s.token then ef \ nf else ef ∩ nf) := by
    intro u hu
    rcases List.mem_cons.mp hu with h | h
    · rw [h]
      simpa using Denotes.leaf _ _ h1
    · have h' : u = splitTok2 s := by simpa using h
      rw [h', if_neg (fun hc => hne12 hc.symm)]
      exact Denotes.leaf _ _ h2
  have hd := Denotes.expand tok [newTokenFrom s.token, splitTok2 s]
    (fun u => if u = newTokenFrom s.token then ef \ nf else ef ∩ nf)
    hnone halias (by simp) hrec
  have hset : ([newTokenFrom s.token, splitTok2 s].foldl
      (fun acc u => acc ∪
        (fun u => if u = newTokenFrom s.token then ef \ nf else ef ∩ nf) u) ∅)
      = ef := by
    have e1 : (if newTokenFrom s.token = newTokenFrom s.token
        then ef \ nf else ef ∩ nf) = ef \ nf := if_pos rfl
    have e2 : (if splitTok2 s = newTokenFrom s.token
        then ef \ nf else ef ∩ nf) = ef ∩ nf :=
      if_neg (fun hc => hne12 hc.symm)
    simp only [List.foldl_cons, List.foldl_nil, e1, e2, Finset.empty_union]
    exact Finset.sdiff_union_inter ef nf
  rwa [hset] at hd

theorem splitOne_leaf_none_of_alias {s : CGState α} (hinv : CGInv s)
    {tok : Nat} (ef nf : Finset α) {t : Nat} {ts : List Nat}
    (hts : lookupTok s.tokenToTokens t = Option.some ts) :
    lookupTok (splitOne s tok ef nf).tokenToFilter t = Option.none := by
  have hmemts := lookupTok_mem hts
  have htle : t ≤ s.token := hinv.aliasKeyLt (t, ts) hmemts
  have hsnone : lookupTok s.tokenToFilter t = Option.none := by
    cases hcase : lookupTok s.tokenToFilter t with
    | none => rfl
    | some g =>
        have hnb := hinv.notBoth (t, g) (lookupTok_mem hcase)
        rw [hnb] at hts
        cases hts
  have hfil : lookupTok (s.tokenToFilter.filter (fun kv => ¬ kv.1 = tok)) t
      = Option.none := by
    by_cases ht : t = tok
    · rw [ht, lookupTok_filter_self]
    · rw [lookupTok_filter_ne _ _ _ ht, hsnone]
  rw [splitOne_leaves, lookupTok_append, lookupTok_append, hfil]
  have h1 : ¬ newTokenFrom s.token = t := by
    have := newTokenFrom_gt s.token
    omega
  have h2 : ¬ splitTok2 s = t := by
    have := splitTok2_gt s
    omega
  rw [lookupTok_cons, if_neg h1]
  rw [show lookupTok ([] : List (Nat × Finset α)) t = Option.none from rfl]
  rw [lookupTok_cons, if_neg h2]
  rfl

theorem splitOne_denotes {s : CGState α} (hinv : CGInv s)
    {tok : Nat} {ef : Finset α} (nf : Finset α)
    (hmem : (tok, ef) ∈ s.tokenToFilter) :
    ∀ t g, Denotes s t g → Denotes (splitOne s tok ef nf) t g := by
  refine Denotes.mono ?_ ?_
  · intro t f hl
    by_cases ht : t = tok
    · subst ht
      have h' := mem_lookupTok hinv.leafKeysNodup hmem
      rw [h'] at hl
      rw [← Option.some.inj hl]
      exact splitOne_denotes_tok hinv nf hmem
    · exact Denotes.leaf _ _ (splitOne_lookup_old hinv hl ht)
  · intro t ts _ hts
    exact ⟨splitOne_leaf_none_of_alias hinv ef nf hts, splitOne_alias_old hts⟩

theorem pieces_disj (ef nf : Finset α) : (ef \ nf) ∩ (ef ∩ nf) = ∅ := by
  ext a
  simp only [Finset.mem_inter, Finset.mem_sdiff, Finset.not_mem_empty, iff_false]
  rintro ⟨⟨_, hn⟩, _, hn'⟩
  exact hn hn'

theorem splitOne_inv {s : CGState α} (hinv : CGInv s)
    {tok : Nat} {ef : Finset α} (nf : Finset α)
    (hmem : (tok, ef) ∈ s.tokenToFilter)
    (hover : ef ∩ nf ≠ ∅) (hsplit : ef \ nf ≠ ∅) :
    CGInv (splitOne s tok ef nf) := by
  have ht1 := newTokenFrom_gt s.token
  have ht2 := splitTok2_gt s
  have ht12 := newTokenFrom_lt_splitTok2 s
  have htokle : tok ≤ s.token := hinv.leafLt (tok, ef) hmem
  have hfilsub : (s.tokenToFilter.filter (fun kv => ¬ kv.1 = tok)).Sublist
      s.tokenToFilter := List.filter_sublist _
  have hAmem : ∀ kv ∈ s.tokenToFilter.filter (fun kv => ¬ kv.1 = tok),
      kv ∈ s.tokenToFilter ∧ ¬ kv.1 = tok := by
    intro kv hkv
    rcases List.mem_filter.mp hkv with ⟨hm, hp⟩
    exact ⟨hm, of_decide_eq_true hp⟩
  have hAdisj : ∀ kv ∈ s.tokenToFilter.filter (fun kv => ¬ kv.1 = tok),
      kv.2 ∩ ef = ∅ := by
    intro kv hkv
    rcases hAmem kv hkv with ⟨hm, hk⟩
    exact leavesDisj_forall hinv kv hm (tok, ef) hmem
      (fun hc => hk (by rw [hc]))
  have holdnone : ∀ x, s.token < x →
      lookupTok s.tokenToTokens x = Option.none := by
    intro x hx
    rw [lookupTok_eq_none]
    intro hc
    rcases List.mem_map.mp hc with ⟨kv, hkv, hk⟩
    have := hinv.aliasKeyLt kv hkv
    omega
  refine ⟨?_, ?_, ?_, ?_, ?_, ?_, ?_, ?_, ?_⟩
  · intro kv hkv
    rw [splitOne_token]
    rcases splitOne_leaf_char hkv with ⟨hm, _⟩ | h | h
    · have := hinv.leafLt kv hm
      omega
    · rw [h]
      exact Nat.le_of_lt ht12
    · rw [h]
  · intro kv hkv
    rw [splitOne_token]
    rw [splitOne_aliases] at hkv
    rcases List.mem_append.mp hkv with h | h
    · have := hinv.aliasKeyLt kv h
      omega
    · have hk : kv = (tok, [newTokenFrom s.token, splitTok2 s]) :=
        List.mem_singleton.mp h
      rw [hk]
      show tok ≤ splitTok2 s
      omega
  · intro kv hkv u hu
    rw [splitOne_token]
    rw [splitOne_aliases] at hkv
    rcases List.mem_append.mp hkv with h | h
    · have := hinv.aliasTgtLt kv h u hu
      omega
    · have hk : kv = (tok, [newTokenFrom s.token, splitTok2 s]) :=
        List.mem_singleton.mp h
      rw [hk] at hu
      rcases List.mem_cons.mp hu with h' | h'

      · rw [h']
        exact Nat.le_of_lt ht12
      · have h'' : u = splitTok2 s := by simpa using h'
        rw [h'']
  · rw [splitOne_leaves, List.map_append, List.map_append]
    simp only [List.map_cons, List.map_nil]
    have hfk : ((s.tokenToFilter.filter (fun kv => ¬ kv.1 = tok)).map
        Prod.fst).Nodup :=
      List.Nodup.sublist (List.Sublist.map Prod.fst hfilsub) hinv.leafKeysNodup
    have hbound : ∀ x ∈ (s.tokenToFilter.filter
        (fun kv => ¬ kv.1 = tok)).map Prod.fst, x ≤ s.token := by
      intro x hx
      rcases List.mem_map.mp hx with ⟨kv, hkv, hk⟩
      exact hk ▸ hinv.leafLt kv (hAmem kv hkv).1
    rw [List.nodup_append, List.nodup_append]
    refine ⟨⟨hfk, by simp, ?_⟩, by simp, ?_⟩
    · intro x hx hx1
      have hx1' : x = newTokenFrom s.token := by simpa using hx1
      have := hbound x hx
      omega
    · intro x hx hx2
      have hx2' : x = splitTok2 s := by simpa using hx2
      rcases List.mem_append.mp hx with h | h
      · have := hbound x h
        omega
      · have h' : x = newTokenFrom s.token := by simpa using h
        omega
  · rw [splitOne_aliases, List.map_append]
    simp only [List.map_cons, List.map_nil]
    rw [List.nodup_append]
    refine ⟨hinv.aliasKeysNodup, by simp, ?_⟩
    intro x hx hx2
    have hxtok : x = tok := by simpa using hx2
    have hnone := lookupTok_eq_none.mp (hinv.notBoth (tok, ef) hmem)
    exact hnone (hxtok ▸ hx)
  · rw [splitOne_leaves, List.map_append, List.map_append]
    simp only [List.map_cons, List.map_nil]
    have hAfil : ∀ f ∈ (s.tokenToFilter.filter
        (fun kv => ¬ kv.1 = tok)).map Prod.snd, f ∩ ef = ∅ := by
      intro f hf
      rcases List.mem_map.mp hf with ⟨kv, hkv, hk⟩
      exact hk ▸ hAdisj kv hkv
    have hfn : ((s.tokenToFilter.filter (fun kv => ¬ kv.1 = tok)).map
        Prod.snd).Nodup :=
      List.Nodup.sublist (List.Sublist.map Prod.snd hfilsub)
        hinv.leafFiltersNodup
    rw [List.nodup_append, List.nodup_append]
    refine ⟨⟨hfn, by simp, ?_⟩, by simp, ?_⟩
    · intro f hf hf1
      have hfe : f = ef \ nf := by simpa using hf1
      have h0 := hAfil f hf
      rw [hfe, Finset.inter_eq_left.mpr Finset.sdiff_subset] at h0
      exact hsplit h0
    · intro f hf hf2
      have hfe : f = ef ∩ nf := by simpa using hf2
      rcases List.mem_append.mp hf with h | h
      · have h0 := hAfil f h
        rw [hfe, Finset.inter_eq_left.mpr Finset.inter_subset_left] at h0
        exact hover h0
      · have hf1 : f = ef \ nf := by simpa using h
        have hc : ef \ nf = ef ∩ nf := by rw [← hf1, hfe]
        have hp := pieces_disj ef nf
        rw [← hc, Finset.inter_self] at hp
        exact hsplit hp
  · intro kv hkv
    rcases splitOne_leaf_char hkv with ⟨hm, hne⟩ | h | h
    · rw [splitOne_aliases, lookupTok_append, hinv.notBoth kv hm,
          lookupTok_cons, if_neg (fun hc : tok = kv.1 => hne hc.symm)]
      rfl
    · have hk1 : kv.1 = newTokenFrom s.token := by rw [h]
      rw [hk1, splitOne_aliases, lookupTok_append, holdnone _ ht1,
          lookupTok_cons,
          if_neg (fun hc : tok = newTokenFrom s.token => by omega)]
      rfl
    · have hk1 : kv.1 = splitTok2 s := by rw [h]
      rw [hk1, splitOne_aliases, lookupTok_append, holdnone _ ht2,
          lookupTok_cons,
          if_neg (fun hc : tok = splitTok2 s => by omega)]
      rfl
  · rw [splitOne_leaves]
    rw [List.pairwise_append, List.pairwise_append]
    have hApw : (s.tokenToFilter.filter (fun kv => ¬ kv.1 = tok)).Pairwise
        (fun a b => a.2 ∩ b.2 = ∅) :=
      List.Pairwise.sublist hfilsub hinv.leavesDisj
    refine ⟨⟨hApw, by simp, ?_⟩, by simp, ?_⟩
    · intro a ha b hb
      have hb' : b = (newTokenFrom s.token, ef \ nf) := by simpa using hb
      rw [hb']
      have h0 := hAdisj a ha
      have hsub : a.2 ∩ (ef \ nf) ⊆ a.2 ∩ ef :=
        Finset.inter_subset_inter (Finset.Subset.refl _) Finset.sdiff_subset
      rw [h0] at hsub
      exact Finset.subset_empty.mp hsub
    · intro a ha b hb
      have hb' : b = (splitTok2 s, ef ∩ nf) := by simpa using hb
      rw [hb']
      rcases List.mem_append.mp ha with h | h
      · have h0 := hAdisj a h
        have hsub : a.2 ∩ (ef ∩ nf) ⊆ a.2 ∩ ef :=
          Finset.inter_subset_inter (Finset.Subset.refl _)
            Finset.inter_subset_left
        rw [h0] at hsub
        exact Finset.subset_empty.mp hsub
      · have ha' : a = (newTokenFrom s.token, ef \ nf) := by simpa using h
        rw [ha']
        exact pieces_disj ef nf
  · intro kv hkv
    rw [splitOne_aliases] at hkv
    rcases List.mem_append.mp hkv with h | h
    · obtain ⟨g, hg⟩ := hinv.aliasDen kv h
      exact ⟨g, splitOne_denotes hinv nf hmem kv.1 g hg⟩
    · have hk : kv = (tok, [newTokenFrom s.token, splitTok2 s]) :=
        List.mem_singleton.mp h
      rw [hk]
      exact ⟨ef, splitOne_denotes_tok hinv nf hmem⟩

theorem splitOne_leavesUnion {s : CGState α} (hinv : CGInv s)
    {tok : Nat} {ef : Finset α} (nf : Finset α)
    (hmem : (tok, ef) ∈ s.tokenToFilter) :
    leavesUnion (splitOne s tok ef nf) = leavesUnion s := by
  have hm1 : (newTokenFrom s.token, ef \ nf)
      ∈ (splitOne s tok ef nf).tokenToFilter := by
    rw [splitOne_leaves]
    simp
  have hm2 : (splitTok2 s, ef ∩ nf)
      ∈ (splitOne s tok ef nf).tokenToFilter := by
    rw [splitOne_leaves]
    simp
  ext a
  rw [mem_leavesUnion, mem_leavesUnion]
  constructor
  · rintro ⟨kv, hkv, ha⟩
    rcases splitOne_leaf_char hkv with ⟨hm, _⟩ | h | h
    · exact ⟨kv, hm, ha⟩
    · rw [h] at ha
      have ha' : a ∈ ef \ nf := ha
      exact ⟨(tok, ef), hmem, (Finset.mem_sdiff.mp ha').1⟩
    · rw [h] at ha
      have ha' : a ∈ ef ∩ nf := ha
      exact ⟨(tok, ef), hmem, (Finset.mem_inter.mp ha').1⟩
  · rintro ⟨kv, hkv, ha⟩
    by_cases hk : kv.1 = tok
    · have hkv' : (tok, kv.2) ∈ s.tokenToFilter := by
        rw [← hk]
        rw [Prod.mk.eta]
        exact hkv
      have hkv2 : kv.2 = ef :=
        leaf_eq_of_keys_nodup hinv.leafKeysNodup hkv' hmem
      rw [hkv2] at ha
      by_cases han : a ∈ nf
      · exact ⟨(splitTok2 s, ef ∩ nf), hm2, Finset.mem_inter.mpr ⟨ha, han⟩⟩
      · exact ⟨(newTokenFrom s.token, ef \ nf), hm1,
          Finset.mem_sdiff.mpr ⟨ha, han⟩⟩
    · refine ⟨kv, ?_, ha⟩
      rw [splitOne_leaves]
      exact List.mem_append.mpr (Or.inl (List.mem_append.mpr (Or.inl
        (List.mem_filter.mpr ⟨hkv, by simp [hk]⟩))))

/-! The split loop: accumulated diff list and intersecting tokens. -/

def dlSet : Option (Finset α) → Finset α
  | Option.none => ∅
  | Option.some d => d

theorem dlSet_join (dl : Option (Finset α)) (ef : Finset α) :
    dlSet (Option.some (dlJoin dl ef)) = dlSet dl ∪ ef := by
  cases dl with
  | none => simp [dlSet, dlJoin]
  | some d => simp [dlSet, dlJoin]

theorem splitLoop_nil (nf : Finset α) (s : CGState α)
    (dl : Option (Finset α)) (nits : List Nat) :
    splitLoop nf [] s dl nits = (s, dl, nits) := rfl

theorem splitLoop_cons_split (nf : Finset α) (tok : Nat) (ef : Finset α)
    (rest : List (Nat × Finset α)) (s : CGState α) (dl : Option (Finset α))
    (nits : List Nat) (h1 : ef ∩ nf ≠ ∅) (h2 : ef \ nf ≠ ∅) :
    splitLoop nf ((tok, ef) :: rest) s dl nits =
      splitLoop nf rest (splitOne s tok ef nf) (Option.some (dlJoin dl ef))
        (nits ++ [splitTok2 s]) := by
  simp only [splitLoop]
  rw [if_pos h1, if_pos h2]

theorem splitLoop_cons_keep (nf : Finset α) (tok : Nat) (ef : Finset α)
    (rest : List (Nat × Finset α)) (s : CGState α) (dl : Option (Finset α))
    (nits : List Nat) (h1 : ef ∩ nf ≠ ∅) (h2 : ¬ ef \ nf ≠ ∅) :
    splitLoop nf ((tok, ef) :: rest) s dl nits =
      splitLoop nf rest s (Option.some (dlJoin dl ef)) (nits ++ [tok]) := by
  simp only [splitLoop]
  rw [if_pos h1, if_neg h2]

theorem splitLoop_cons_skip (nf : Finset α) (tok : Nat) (ef : Finset α)
    (rest : List (Nat × Finset α)) (s : CGState α) (dl : Option (Finset α))
    (nits : List Nat) (h1 : ¬ ef ∩ nf ≠ ∅) :
    splitLoop nf ((tok, ef) :: rest) s dl nits =
      splitLoop nf rest s dl nits := by
  simp only [splitLoop]
  rw [if_neg h1]

theorem forall2_append {β γ : Type} {R : β → γ → Prop} :
    ∀ {l1 : List β} {l2 : List γ} {u1 : List β} {u2 : List γ},
      List.Forall₂ R l1 l2 → List.Forall₂ R u1 u2 →
      List.Forall₂ R (l1 ++ u1) (l2 ++ u2) := by
  intro l1 l2 u1 u2 h1 h2
  induction h1 with
  | nil => simpa using h2
  | cons hab hrest ih => exact List.Forall₂.cons hab ih

theorem forall2_lookup_upgrade {ts : List Nat} {gs : List (Finset α)}
    {l l' : List (Nat × Finset α)}
    (h : List.Forall₂ (fun t g => lookupTok l t = Option.some g) ts gs)
    (hup : ∀ t ∈ ts, ∀ g, lookupTok l t = Option.some g →
      lookupTok l' t = Option.some g) :
    List.Forall₂ (fun t g => lookupTok l' t = Option.some g) ts gs := by
  induction h with
  | nil => exact List.Forall₂.nil
  | cons hab hrest ih =>
      rename_i a b ts' gs'
      exact List.Forall₂.cons (hup a (List.mem_cons_self a ts') b hab)
        (ih (fun t ht g hg => hup t (List.mem_cons_of_mem _ ht) g hg))

theorem forall2_lookup_map {l : List (Nat × Finset α)} {ts : List Nat}
    {gs : List (Finset α)}
    (h : List.Forall₂ (fun t g => lookupTok l t = Option.some g) ts gs) :
    ts.map (fun u => (lookupTok l u).getD ∅) = gs := by
  induction h with
  | nil => rfl
  | cons hab hrest ih =>
      rw [List.map_cons, ih, hab]
      rfl

theorem unionOf_singleton (f : Finset α) : unionOf [f] = f := by
  simp [unionOf]

theorem splitLoop_spec (nf : Finset α) :
    ∀ (todo : List (Nat × Finset α)) (s : CGState α)
      (dl : Option (Finset α)) (nits : List Nat),
      CGInv s →
      (∀ kv ∈ todo, kv ∈ s.tokenToFilter) →
      (todo.map Prod.fst).Nodup →
      (∀ t ∈ nits, t ∉ todo.map Prod.fst) →
      (∃ gs, List.Forall₂
          (fun t g => lookupTok s.tokenToFilter t = Option.some g) nits gs ∧
          unionOf gs = dlSet dl ∩ nf) →
      dlSet dl ⊆ leavesUnion s →
      (∀ kv ∈ s.tokenToFilter, kv ∉ todo → kv.2 ∩ nf ⊆ dlSet dl) →
      (dl ≠ Option.none → nits ≠ []) →
      CGInv (splitLoop nf todo s dl nits).1 ∧
      leavesUnion (splitLoop nf todo s dl nits).1 = leavesUnion s ∧
      s.token ≤ (splitLoop nf todo s dl nits).1.token ∧
      (∀ t g, Denotes s t g → Denotes (splitLoop nf todo s dl nits).1 t g) ∧
      (∃ gs, List.Forall₂
          (fun t g =>
            lookupTok (splitLoop nf todo s dl nits).1.tokenToFilter t
              = Option.some g)
          (splitLoop nf todo s dl nits).2.2 gs ∧
          unionOf gs = dlSet (splitLoop nf todo s dl nits).2.1 ∩ nf) ∧
      ((splitLoop nf todo s dl nits).2.1 = Option.none →
        (splitLoop nf todo s dl nits).1 = s ∧ dl = Option.none) ∧
      dlSet (splitLoop nf todo s dl nits).2.1 ⊆ leavesUnion s ∧
      (∀ kv ∈ (splitLoop nf todo s dl nits).1.tokenToFilter,
        kv.2 ∩ nf ⊆ dlSet (splitLoop nf todo s dl nits).2.1) ∧
      ((splitLoop nf todo s dl nits).2.1 ≠ Option.none →
        (splitLoop nf todo s dl nits).2.2 ≠ []) := by
  intro todo
  induction todo with
  | nil =>
      intro s dl nits hinv htodo hnodup hnitodo hgs hdlsub hcov hne
      rw [splitLoop_nil]
      exact ⟨hinv, rfl, Nat.le_refl _, fun t g h => h, hgs,
        fun h => ⟨rfl, h⟩, hdlsub,
        fun kv hkv => hcov kv hkv (List.not_mem_nil kv), hne⟩
  | cons hd rest ih =>
      obtain ⟨tok, ef⟩ := hd
      intro s dl nits hinv htodo hnodup hnitodo hgs hdlsub hcov hne
      have hmem : (tok, ef) ∈ s.tokenToFilter :=
        htodo (tok, ef) (List.mem_cons_self _ _)
      have hefsub : ef ⊆ leavesUnion s :=
        fun a ha => mem_leavesUnion.mpr ⟨(tok, ef), hmem, ha⟩
      rw [List.map_cons, List.nodup_cons] at hnodup
      have htokrest : ∀ kv ∈ rest, kv.1 ≠ tok := by
        intro kv hkv hc
        exact hnodup.1 (hc ▸ List.mem_map.mpr ⟨kv, hkv, rfl⟩)
      have hkeyle : ∀ kv ∈ rest, kv.1 ≤ s.token :=
        fun kv hkv => hinv.leafLt kv (htodo kv (List.mem_cons_of_mem _ hkv))
      by_cases hover : ef ∩ nf ≠ ∅
      · by_cases hsplit : ef \ nf ≠ ∅
        · rw [splitLoop_cons_split nf tok ef rest s dl nits hover hsplit]
          have hinv' : CGInv (splitOne s tok ef nf) :=
            splitOne_inv hinv nf hmem hover hsplit
          have hLU : leavesUnion (splitOne s tok ef nf) = leavesUnion s :=
            splitOne_leavesUnion hinv nf hmem
          have hden := splitOne_denotes hinv nf hmem
          have htodo' : ∀ kv ∈ rest,
              kv ∈ (splitOne s tok ef nf).tokenToFilter := by
            intro kv hkv
            rw [splitOne_leaves]
            refine List.mem_append.mpr (Or.inl
              (List.mem_append.mpr (Or.inl ?_)))
            exact List.mem_filter.mpr
              ⟨htodo kv (List.mem_cons_of_mem _ hkv),
               by simp [htokrest kv hkv]⟩
          have hnitodo' : ∀ t ∈ nits ++ [splitTok2 s],
              t ∉ rest.map Prod.fst := by
            intro t ht hc
            rcases List.mem_map.mp hc with ⟨kv, hkv, hk⟩
            rcases List.mem_append.mp ht with h | h
            · exact hnitodo t h
                (by rw [List.map_cons]; exact List.mem_cons_of_mem _ (hk ▸ List.mem_map.mpr ⟨kv, hkv, rfl⟩))
            · have ht2 : t = splitTok2 s := by simpa using h
              have := hkeyle kv hkv
              have := splitTok2_gt s
              omega
          obtain ⟨gs, hfa, hun⟩ := hgs
          have hfa' : List.Forall₂
              (fun t g =>
                lookupTok (splitOne s tok ef nf).tokenToFilter t
                  = Option.some g)
              (nits ++ [splitTok2 s]) (gs ++ [ef ∩ nf]) := by
            refine forall2_append ?_ ?_
            · refine forall2_lookup_upgrade hfa ?_
              intro t ht g hg
              have hnt := hnitodo t ht
              rw [List.map_cons] at hnt
              have hne' : ¬ t = tok := fun hc => hnt (hc ▸ List.mem_cons_self _ _)
              exact splitOne_lookup_old hinv hg hne'
            · exact List.Forall₂.cons (splitOne_lookup_t2 hinv tok ef nf)
                List.Forall₂.nil
          have hun' : unionOf (gs ++ [ef ∩ nf])
              = dlSet (Option.some (dlJoin dl ef)) ∩ nf := by
            rw [unionOf_append, unionOf_singleton, hun, dlSet_join,
                Finset.union_inter_distrib_right]
          have hdlsub' : dlSet (Option.some (dlJoin dl ef))
              ⊆ leavesUnion (splitOne s tok ef nf) := by
            rw [dlSet_join, hLU]
            exact Finset.union_subset hdlsub hefsub
          have hcov' : ∀ kv ∈ (splitOne s tok ef nf).tokenToFilter,
              kv ∉ rest → kv.2 ∩ nf ⊆ dlSet (Option.some (dlJoin dl ef)) := by
            intro kv hkv hnr
            rw [dlSet_join]
            rcases splitOne_leaf_char hkv with ⟨hm, hknt⟩ | h | h
            · have hnt : kv ∉ (tok, ef) :: rest := by
                intro hc
                rcases List.mem_cons.mp hc with hc | hc
                · exact hknt (by rw [hc])
                · exact hnr hc
              exact (hcov kv hm hnt).trans Finset.subset_union_left
            · have h2 : kv.2 = ef \ nf := by rw [h]
              rw [h2, Finset.sdiff_inter_self]
              exact Finset.empty_subset _
            · have h2 : kv.2 = ef ∩ nf := by rw [h]
              rw [h2]
              intro a ha
              exact Finset.mem_union_right _
                (Finset.mem_inter.mp (Finset.mem_inter.mp ha).1).1
          obtain ⟨c1, c2, c3, c4, c5, c6, c7, c8, c9⟩ :=
            ih (splitOne s tok ef nf) (Option.some (dlJoin dl ef))
              (nits ++ [splitTok2 s]) hinv' htodo' hnodup.2 hnitodo'
              ⟨gs ++ [ef ∩ nf], hfa', hun'⟩ hdlsub' hcov' (fun _ => by simp)
          have h3 : s.token ≤ (splitOne s tok ef nf).token := by
            rw [splitOne_token]
            exact Nat.le_of_lt (splitTok2_gt s)
          refine ⟨c1, by rw [c2, hLU], Nat.le_trans h3 c3,
            fun t g h => c4 t g (hden t g h), c5, ?_, ?_, c8, c9⟩
          · intro h
            exact absurd (c6 h).2 (Option.some_ne_none _)
          · rw [← hLU]
            exact c7
        · rw [splitLoop_cons_keep nf tok ef rest s dl nits hover hsplit]
          have hsub : ef ⊆ nf := by
            rw [← Finset.sdiff_eq_empty_iff_subset]
            exact not_not.mp hsplit
          have htodo' : ∀ kv ∈ rest, kv ∈ s.tokenToFilter :=
            fun kv hkv => htodo kv (List.mem_cons_of_mem _ hkv)
          have hnitodo' : ∀ t ∈ nits ++ [tok], t ∉ rest.map Prod.fst := by
            intro t ht hc
            rcases List.mem_append.mp ht with h | h
            · exact hnitodo t h
                (by rw [List.map_cons]; exact List.mem_cons_of_mem _ hc)
            · have ht2 : t = tok := by simpa using h
              exact hnodup.1 (ht2 ▸ hc)
          obtain ⟨gs, hfa, hun⟩ := hgs
          have hfa' : List.Forall₂
              (fun t g => lookupTok s.tokenToFilter t = Option.some g)
              (nits ++ [tok]) (gs ++ [ef]) :=
            forall2_append hfa
              (List.Forall₂.cons (mem_lookupTok hinv.leafKeysNodup hmem)
                List.Forall₂.nil)
          have hun' : unionOf (gs ++ [ef])
              = dlSet (Option.some (dlJoin dl ef)) ∩ nf := by
            rw [unionOf_append, unionOf_singleton, hun, dlSet_join,
                Finset.union_inter_distrib_right,
                Finset.inter_eq_left.mpr hsub]
          have hdlsub' : dlSet (Option.some (dlJoin dl ef))
              ⊆ leavesUnion s := by
            rw [dlSet_join]
            exact Finset.union_subset hdlsub hefsub
          have hcov' : ∀ kv ∈ s.tokenToFilter, kv ∉ rest →
              kv.2 ∩ nf ⊆ dlSet (Option.some (dlJoin dl ef)) := by
            intro kv hkv hnr
            rw [dlSet_join]
            by_cases hkv0 : kv = (tok, ef)
            · rw [hkv0]
              intro a ha
              exact Finset.mem_union_right _ (Finset.mem_inter.mp ha).1
            · have hnt : kv ∉ (tok, ef) :: rest := by
                intro hc
                rcases List.mem_cons.mp hc with hc | hc
                · exact hkv0 hc
                · exact hnr hc
              exact (hcov kv hkv hnt).trans Finset.subset_union_left
          obtain ⟨c1, c2, c3, c4, c5, c6, c7, c8, c9⟩ :=
            ih s (Option.some (dlJoin dl ef)) (nits ++ [tok]) hinv htodo'
              hnodup.2 hnitodo' ⟨gs ++ [ef], hfa', hun'⟩ hdlsub' hcov'
              (fun _ => by simp)
          refine ⟨c1, c2, c3, c4, c5, ?_, c7, c8, c9⟩
          intro h
          exact absurd (c6 h).2 (Option.some_ne_none _)
      · rw [splitLoop_cons_skip nf tok ef rest s dl nits hover]
        have hempty : ef ∩ nf = ∅ := not_not.mp hover
        have htodo' : ∀ kv ∈ rest, kv ∈ s.tokenToFilter :=
          fun kv hkv => htodo kv (List.mem_cons_of_mem _ hkv)
        have hnitodo' : ∀ t ∈ nits, t ∉ rest.map Prod.fst := by
          intro t ht hc
          exact hnitodo t ht
            (by rw [List.map_cons]; exact List.mem_cons_of_mem _ hc)
        have hcov' : ∀ kv ∈ s.tokenToFilter, kv ∉ rest →
            kv.2 ∩ nf ⊆ dlSet dl := by
          intro kv hkv hnr
          by_cases hkv0 : kv = (tok, ef)
          · have h2 : kv.2 = ef := by rw [hkv0]
            rw [h2, hempty]
            exact Finset.empty_subset _
          · have hnt : kv ∉ (tok, ef) :: rest := by
              intro hc
              rcases List.mem_cons.mp hc with hc | hc
              · exact hkv0 hc
              · exact hnr hc
            exact hcov kv hkv hnt
        exact ih s dl nits hinv htodo' hnodup.2 hnitodo' hgs hdlsub hcov' hne

/-! Facts about addNewToken, withToken and addAlias. -/

theorem alias_leaf_none {s : CGState α} (hinv : CGInv s) {t : Nat}
    {ts : List Nat} (h : lookupTok s.tokenToTokens t = Option.some ts) :
    lookupTok s.tokenToFilter t = Option.none := by
  cases hcase : lookupTok s.tokenToFilter t with
  | none => rfl
  | some g =>
      have hnb := hinv.notBoth (t, g) (lookupTok_mem hcase)
      rw [hnb] at h
      cases h

theorem leaf_lookup_none_of_gt {s : CGState α} (hinv : CGInv s) {t : Nat}
    (h : s.token < t) : lookupTok s.tokenToFilter t = Option.none := by
  rw [lookupTok_eq_none]
  intro hc
  rcases List.mem_map.mp hc with ⟨kv, hkv, hk⟩
  have := hinv.leafLt kv hkv
  omega

theorem alias_lookup_none_of_gt {s : CGState α} (hinv : CGInv s) {t : Nat}
    (h : s.token < t) : lookupTok s.tokenToTokens t = Option.none := by
  rw [lookupTok_eq_none]
  intro hc
  rcases List.mem_map.mp hc with ⟨kv, hkv, hk⟩
  have := hinv.aliasKeyLt kv hkv
  omega

theorem addNewToken_leaves (s : CGState α) (f : Finset α) :
    (addNewToken s f).1.tokenToFilter
      = s.tokenToFilter ++ [(newTokenFrom s.token, f)] := rfl

theorem addNewToken_aliases (s : CGState α) (f : Finset α) :
    (addNewToken s f).1.tokenToTokens = s.tokenToTokens := rfl

theorem addNewToken_token (s : CGState α) (f : Finset α) :
    (addNewToken s f).1.token = newTokenFrom s.token := rfl

theorem addNewToken_snd (s : CGState α) (f : Finset α) :
    (addNewToken s f).2 = newTokenFrom s.token := rfl

theorem addNewToken_lookup_old {s : CGState α} {f : Finset α} {t : Nat}
    {g : Finset α} (h : lookupTok s.tokenToFilter t = Option.some g) :
    lookupTok (addNewToken s f).1.tokenToFilter t = Option.some g := by
  rw [addNewToken_leaves, lookupTok_append, h]

theorem addNewToken_lookup_new {s : CGState α} (hinv : CGInv s) (f : Finset α) :
    lookupTok (addNewToken s f).1.tokenToFilter (newTokenFrom s.token)
      = Option.some f := by
  rw [addNewToken_leaves, lookupTok_append,
      leaf_lookup_none_of_gt hinv (newTokenFrom_gt s.token), lookupTok_cons]
  simp

theorem addNewToken_lookup_fresh {s : CGState α} (hinv : CGInv s)
    (f : Finset α) {t : Nat} (h1 : s.token < t)
    (h2 : ¬ newTokenFrom s.token = t) :
    lookupTok (addNewToken s f).1.tokenToFilter t = Option.none := by
  rw [addNewToken_leaves, lookupTok_append, leaf_lookup_none_of_gt hinv h1,
      lookupTok_cons, if_neg h2]
  rfl

theorem addNewToken_denotes {s : CGState α} (hinv : CGInv s) (f : Finset α) :
    ∀ t g, Denotes s t g → Denotes (addNewToken s f).1 t g := by
  refine Denotes.mono ?_ ?_
  · intro t g hl
    exact Denotes.leaf _ _ (addNewToken_lookup_old hl)
  · intro t ts _ hts
    have htle : t ≤ s.token := hinv.aliasKeyLt (t, ts) (lookupTok_mem hts)
    refine ⟨?_, by rw [addNewToken_aliases]; exact hts⟩
    rw [addNewToken_leaves, lookupTok_append, alias_leaf_none hinv hts,
        lookupTok_cons,
        if_neg (fun hc : newTokenFrom s.token = t => by
          have := newTokenFrom_gt s.token
          omega)]
    rfl

theorem addNewToken_leavesUnion (s : CGState α) (f : Finset α) :
    leavesUnion (addNewToken s f).1 = leavesUnion s ∪ f := by
  unfold leavesUnion
  rw [addNewToken_leaves, List.map_append, unionOf_append]
  simp only [List.map_cons, List.map_nil]
  rw [unionOf_singleton]

theorem addNewToken_inv {s : CGState α} (hinv : CGInv s) {f : Finset α}
    (hdisj : ∀ kv ∈ s.tokenToFilter, kv.2 ∩ f = ∅)
    (hnodupf : ∀ kv ∈ s.tokenToFilter, kv.2 ≠ f) :
    CGInv (addNewToken s f).1 := by
  have hfresh := newTokenFrom_gt s.token
  refine ⟨?_, ?_, ?_, ?_, ?_, ?_, ?_, ?_, ?_⟩
  · intro kv hkv
    rw [addNewToken_token]
    rw [addNewToken_leaves] at hkv
    rcases List.mem_append.mp hkv with h | h
    · have := hinv.leafLt kv h
      omega
    · have h' : kv = (newTokenFrom s.token, f) := List.mem_singleton.mp h
      rw [h']
  · intro kv hkv
    rw [addNewToken_token]
    rw [addNewToken_aliases] at hkv
    have := hinv.aliasKeyLt kv hkv
    omega
  · intro kv hkv u hu
    rw [addNewToken_token]
    rw [addNewToken_aliases] at hkv
    have := hinv.aliasTgtLt kv hkv u hu
    omega
  · rw [addNewToken_leaves, List.map_append]
    simp only [List.map_cons, List.map_nil]
    rw [List.nodup_append]
    refine ⟨hinv.leafKeysNodup, by simp, ?_⟩
    intro x hx hx1
    have hx1' : x = newTokenFrom s.token := by simpa using hx1
    rcases List.mem_map.mp hx with ⟨kv, hkv, hk⟩
    have := hinv.leafLt kv hkv
    omega
  · rw [addNewToken_aliases]
    exact hinv.aliasKeysNodup
  · rw [addNewToken_leaves, List.map_append]
    simp only [List.map_cons, List.map_nil]
    rw [List.nodup_append]
    refine ⟨hinv.leafFiltersNodup, by simp, ?_⟩
    intro x hx hx1
    have hx1' : x = f := by simpa using hx1
    rcases List.mem_map.mp hx with ⟨kv, hkv, hk⟩
    exact hnodupf kv hkv (by rw [hk, hx1'])
  · intro kv hkv
    rw [addNewToken_aliases]
    rw [addNewToken_leaves] at hkv
    rcases List.mem_append.mp hkv with h | h
    · exact hinv.notBoth kv h
    · have h' : kv = (newTokenFrom s.token, f) := List.mem_singleton.mp h
      have hk1 : kv.1 = newTokenFrom s.token := by rw [h']
      rw [hk1]
      exact alias_lookup_none_of_gt hinv hfresh
  · rw [addNewToken_leaves, List.pairwise_append]
    refine ⟨hinv.leavesDisj, by simp, ?_⟩
    intro a ha b hb
    have hb' : b = (newTokenFrom s.token, f) := by simpa using hb
    rw [hb']
    exact hdisj a ha
  · intro kv hkv
    rw [addNewToken_aliases] at hkv
    obtain ⟨g, hg⟩ := hinv.aliasDen kv hkv
    exact ⟨g, addNewToken_denotes hinv f kv.1 g hg⟩

theorem withToken_leaves (s : CGState α) (n : Nat) :
    (withToken s n).tokenToFilter = s.tokenToFilter := rfl

theorem withToken_aliases (s : CGState α) (n : Nat) :
    (withToken s n).tokenToTokens = s.tokenToTokens := rfl

theorem withToken_token (s : CGState α) (n : Nat) :
    (withToken s n).token = n := rfl

theorem withToken_denotes (s : CGState α) (n : Nat) :
    ∀ t g, Denotes s t g → Denotes (withToken s n) t g :=
  Denotes.mono (fun t g hl => Denotes.leaf t g hl)
    (fun t ts hlnone hts => ⟨hlnone, hts⟩)

theorem withToken_leavesUnion (s : CGState α) (n : Nat) :
    leavesUnion (withToken s n) = leavesUnion s := rfl

theorem withToken_inv {s : CGState α} (hinv : CGInv s) {n : Nat}
    (h : s.token ≤ n) : CGInv (withToken s n) := by
  refine ⟨?_, ?_, ?_, hinv.leafKeysNodup, hinv.aliasKeysNodup,
    hinv.leafFiltersNodup, hinv.notBoth, hinv.leavesDisj, ?_⟩
  · intro kv hkv
    have := hinv.leafLt kv hkv
    rw [withToken_token]
    omega
  · intro kv hkv
    have := hinv.aliasKeyLt kv hkv
    rw [withToken_token]
    omega
  · intro kv hkv u hu
    have := hinv.aliasTgtLt kv hkv u hu
    rw [withToken_token]
    omega
  · intro kv hkv
    obtain ⟨g, hg⟩ := hinv.aliasDen kv hkv
    exact ⟨g, withToken_denotes s n kv.1 g hg⟩

theorem addAlias_leaves (s : CGState α) (t : Nat) (ts : List Nat) :
    (addAlias s t ts).tokenToFilter = s.tokenToFilter := rfl

theorem addAlias_aliases (s : CGState α) (t : Nat) (ts : List Nat) :
    (addAlias s t ts).tokenToTokens = s.tokenToTokens ++ [(t, ts)] := rfl

theorem addAlias_token (s : CGState α) (t : Nat) (ts : List Nat) :
    (addAlias s t ts).token = s.token := rfl

theorem addAlias_denotes (s : CGState α) (tn : Nat) (tsn : List Nat) :
    ∀ t g, Denotes s t g → Denotes (addAlias s tn tsn) t g := by
  refine Denotes.mono ?_ ?_
  · intro t g hl
    exact Denotes.leaf t g hl
  · intro t ts hlnone hts
    refine ⟨hlnone, ?_⟩
    show lookupTok (s.tokenToTokens ++ [(tn, tsn)]) t = Option.some ts
    rw [lookupTok_append, hts]

theorem addAlias_leavesUnion (s : CGState α) (t : Nat) (ts : List Nat) :
    leavesUnion (addAlias s t ts) = leavesUnion s := rfl

theorem finishAdd_some (s : CGState α) (nf dl : Finset α) :
    finishAdd s nf (Option.some dl) =
      (addAlias
        (residualLeaf (withToken (splitRes s nf).1
          (newTokenFrom (splitRes s nf).1.token)) nf dl).1
        (newTokenFrom (splitRes s nf).1.token)
        ((splitRes s nf).2.2 ++
         (residualLeaf (withToken (splitRes s nf).1
           (newTokenFrom (splitRes s nf).1.token)) nf dl).2),
       newTokenFrom (splitRes s nf).1.token) := rfl

theorem finishAdd_none (s : CGState α) (nf : Finset α) :
    finishAdd s nf Option.none = addNewToken (splitRes s nf).1 nf := rfl

theorem residualLeaf_pos (s2 : CGState α) (nf dl : Finset α)
    (h : nf \ dl ≠ ∅) :
    residualLeaf s2 nf dl
      = ((addNewToken s2 (nf \ dl)).1, [(addNewToken s2 (nf \ dl)).2]) := by
  unfold residualLeaf
  rw [if_pos h]

theorem residualLeaf_neg (s2 : CGState α) (nf dl : Finset α)
    (h : ¬ nf \ dl ≠ ∅) :
    residualLeaf s2 nf dl = (s2, []) := by
  unfold residualLeaf
  rw [if_neg h]

theorem forall2_lookup_mem {l : List (Nat × Finset α)} {ts : List Nat}
    {gs : List (Finset α)}
    (h : List.Forall₂ (fun t g => lookupTok l t = Option.some g) ts gs) :
    ∀ t ∈ ts, ∃ g, lookupTok l t = Option.some g := by
  induction h with
  | nil => intro t ht; cases ht
  | cons hab hrest ih =>
      intro t ht
      rcases List.mem_cons.mp ht with h | h
      · exact ⟨_, h ▸ hab⟩
      · exact ih t h

theorem union_sdiff_cover {U dl nf : Finset α} (h : dl ⊆ U) :
    U ∪ (nf \ dl) = U ∪ nf := by
  ext a
  simp only [Finset.mem_union, Finset.mem_sdiff]
  constructor
  · rintro (h1 | ⟨h1, h2⟩)
    · exact Or.inl h1
    · exact Or.inr h1
  · rintro (h1 | h1)
    · exact Or.inl h1
    · by_cases hd : a ∈ dl
      · exact Or.inl (h hd)
      · exact Or.inr ⟨h1, hd⟩

theorem inter_union_sdiff_self (dl nf : Finset α) :
    (dl ∩ nf) ∪ (nf \ dl) = nf := by
  ext a
  simp only [Finset.mem_union, Finset.mem_inter, Finset.mem_sdiff]
  constructor
  · rintro (⟨_, h⟩ | ⟨h, _⟩)
    · exact h
    · exact h
  · intro h
    by_cases hd : a ∈ dl
    · exact Or.inl ⟨hd, h⟩
    · exact Or.inr ⟨h, hd⟩

theorem finish_some_spec {r1 : CGState α} (hinv1 : CGInv r1)
    {nf dl : Finset α} {nits : List Nat} {gs : List (Finset α)}
    (hfa : List.Forall₂
      (fun t g => lookupTok r1.tokenToFilter t = Option.some g) nits gs)
    (hun : unionOf gs = dl ∩ nf)
    (hdlsub : dl ⊆ leavesUnion r1)
    (hcov : ∀ kv ∈ r1.tokenToFilter, kv.2 ∩ nf ⊆ dl)
    (hnits : nits ≠ []) :
    CGInv (addAlias
        (residualLeaf (withToken r1 (newTokenFrom r1.token)) nf dl).1
        (newTokenFrom r1.token)
        (nits ++
          (residualLeaf (withToken r1 (newTokenFrom r1.token)) nf dl).2)) ∧
    leavesUnion (addAlias
        (residualLeaf (withToken r1 (newTokenFrom r1.token)) nf dl).1
        (newTokenFrom r1.token)
        (nits ++
          (residualLeaf (withToken r1 (newTokenFrom r1.token)) nf dl).2))
      = leavesUnion r1 ∪ nf ∧
    Denotes (addAlias
        (residualLeaf (withToken r1 (newTokenFrom r1.token)) nf dl).1
        (newTokenFrom r1.token)
        (nits ++
          (residualLeaf (withToken r1 (newTokenFrom r1.token)) nf dl).2))
      (newTokenFrom r1.token) nf ∧
    (∀ t g, Denotes r1 t g → Denotes (addAlias
        (residualLeaf (withToken r1 (newTokenFrom r1.token)) nf dl).1
        (newTokenFrom r1.token)
        (nits ++
          (residualLeaf (withToken r1 (newTokenFrom r1.token)) nf dl).2))
      t g) := by
  have ht0 : r1.token < newTokenFrom r1.token := newTokenFrom_gt r1.token
  have hinv2 : CGInv (withToken r1 (newTokenFrom r1.token)) :=
    withToken_inv hinv1 (Nat.le_of_lt ht0)
  have hnitsle : ∀ u ∈ nits, u ≤ r1.token := by
    intro u hu
    obtain ⟨g, hg⟩ := forall2_lookup_mem hfa u hu
    exact hinv1.leafLt (u, g) (lookupTok_mem hg)
  by_cases hres : nf \ dl ≠ ∅
  · have hP1 : (residualLeaf (withToken r1 (newTokenFrom r1.token)) nf dl).1
        = (addNewToken (withToken r1 (newTokenFrom r1.token)) (nf \ dl)).1 := by
      rw [residualLeaf_pos _ _ _ hres]
    have hP2 : (residualLeaf (withToken r1 (newTokenFrom r1.token)) nf dl).2
        = [(addNewToken (withToken r1 (newTokenFrom r1.token)) (nf \ dl)).2] := by
      rw [residualLeaf_pos _ _ _ hres]
    have hA2 : (addNewToken (withToken r1 (newTokenFrom r1.token))
        (nf \ dl)).2 = newTokenFrom (newTokenFrom r1.token) := by
      rw [addNewToken_snd, withToken_token]
    rw [hP1, hP2, hA2]
    have hAleaves : (addNewToken (withToken r1 (newTokenFrom r1.token))
        (nf \ dl)).1.tokenToFilter
        = r1.tokenToFilter
          ++ [(newTokenFrom (newTokenFrom r1.token), nf \ dl)] := by
      rw [addNewToken_leaves, withToken_leaves, withToken_token]
    have hAaliases : (addNewToken (withToken r1 (newTokenFrom r1.token))
        (nf \ dl)).1.tokenToTokens = r1.tokenToTokens := by
      rw [addNewToken_aliases, withToken_aliases]
    have hAtoken : (addNewToken (withToken r1 (newTokenFrom r1.token))
        (nf \ dl)).1.token = newTokenFrom (newTokenFrom r1.token) := by
      rw [addNewToken_token, withToken_token]
    have hdisj2 : ∀ kv ∈ (withToken r1 (newTokenFrom r1.token)).tokenToFilter,
        kv.2 ∩ (nf \ dl) = ∅ := by
      intro kv hkv
      rw [withToken_leaves] at hkv
      have hc := hcov kv hkv
      refine Finset.eq_empty_iff_forall_not_mem.mpr ?_
      intro a ha
      rw [Finset.mem_inter, Finset.mem_sdiff] at ha
      exact ha.2.2 (hc (Finset.mem_inter.mpr ⟨ha.1, ha.2.1⟩))
    have hnodupf2 : ∀ kv ∈ (withToken r1
        (newTokenFrom r1.token)).tokenToFilter, kv.2 ≠ nf \ dl := by
      intro kv hkv hc
      apply hres
      have h0 := hdisj2 kv hkv
      rw [hc, Finset.inter_self] at h0
      exact h0
    have hinvA : CGInv (addNewToken (withToken r1 (newTokenFrom r1.token))
        (nf \ dl)).1 := addNewToken_inv hinv2 hdisj2 hnodupf2
    have hlookA_t1 : lookupTok (addNewToken (withToken r1
        (newTokenFrom r1.token)) (nf \ dl)).1.tokenToFilter
        (newTokenFrom (newTokenFrom r1.token)) = Option.some (nf \ dl) := by
      have h0 := addNewToken_lookup_new hinv2 (nf \ dl)
      rw [withToken_token] at h0
      exact h0
    have ht01 : newTokenFrom r1.token
        < newTokenFrom (newTokenFrom r1.token) :=
      newTokenFrom_gt (newTokenFrom r1.token)
    have hlook_t0_none : lookupTok (addNewToken (withToken r1
        (newTokenFrom r1.token)) (nf \ dl)).1.tokenToFilter
        (newTokenFrom r1.token) = Option.none := by
      rw [hAleaves, lookupTok_append, leaf_lookup_none_of_gt hinv1 ht0,
          lookupTok_cons,
          if_neg (fun hc : newTokenFrom (newTokenFrom r1.token)
            = newTokenFrom r1.token => by omega)]
      rfl
    have hmonoF : ∀ t g, Denotes r1 t g →
        Denotes (addAlias (addNewToken (withToken r1
          (newTokenFrom r1.token)) (nf \ dl)).1 (newTokenFrom r1.token)
          (nits ++ [newTokenFrom (newTokenFrom r1.token)])) t g := by
      intro t g h
      exact addAlias_denotes _ _ _ t g
        (addNewToken_denotes hinv2 (nf \ dl) t g
          (withToken_denotes r1 (newTokenFrom r1.token) t g h))
    have hfaF : List.Forall₂
        (fun t g => lookupTok (addAlias (addNewToken (withToken r1
          (newTokenFrom r1.token)) (nf \ dl)).1 (newTokenFrom r1.token)
          (nits ++ [newTokenFrom (newTokenFrom r1.token)])).tokenToFilter t
          = Option.some g) nits gs := by
      refine forall2_lookup_upgrade hfa ?_
      intro t ht g hg
      rw [addAlias_leaves, hAleaves, lookupTok_append, hg]
    have hFleaf_t0 : lookupTok (addAlias (addNewToken (withToken r1
        (newTokenFrom r1.token)) (nf \ dl)).1 (newTokenFrom r1.token)
        (nits ++ [newTokenFrom (newTokenFrom r1.token)])).tokenToFilter
        (newTokenFrom r1.token) = Option.none := by
      rw [addAlias_leaves]
      exact hlook_t0_none
    have hFleaf_t1 : lookupTok (addAlias (addNewToken (withToken r1
        (newTokenFrom r1.token)) (nf \ dl)).1 (newTokenFrom r1.token)
        (nits ++ [newTokenFrom (newTokenFrom r1.token)])).tokenToFilter
        (newTokenFrom (newTokenFrom r1.token)) = Option.some (nf \ dl) := by
      rw [addAlias_leaves]
      exact hlookA_t1
    have hFalias_t0 : lookupTok (addAlias (addNewToken (withToken r1
        (newTokenFrom r1.token)) (nf \ dl)).1 (newTokenFrom r1.token)
        (nits ++ [newTokenFrom (newTokenFrom r1.token)])).tokenToTokens
        (newTokenFrom r1.token)
        = Option.some (nits ++ [newTokenFrom (newTokenFrom r1.token)]) := by
      rw [addAlias_aliases, lookupTok_append, hAaliases,
          alias_lookup_none_of_gt hinv1 ht0, lookupTok_cons]
      simp
    have hrec : ∀ u ∈ nits ++ [newTokenFrom (newTokenFrom r1.token)],
        Denotes (addAlias (addNewToken (withToken r1
          (newTokenFrom r1.token)) (nf \ dl)).1 (newTokenFrom r1.token)
          (nits ++ [newTokenFrom (newTokenFrom r1.token)])) u
          ((lookupTok (addAlias (addNewToken (withToken r1
            (newTokenFrom r1.token)) (nf \ dl)).1 (newTokenFrom r1.token)
            (nits ++ [newTokenFrom (newTokenFrom r1.token)])).tokenToFilter
            u).getD ∅) := by
      intro u hu
      rcases List.mem_append.mp hu with h | h
      · obtain ⟨g, hg⟩ := forall2_lookup_mem hfaF u h
        rw [hg]
        exact Denotes.leaf _ _ hg
      · have h' : u = newTokenFrom (newTokenFrom r1.token) := by simpa using h
        rw [h', hFleaf_t1]
        exact Denotes.leaf _ _ hFleaf_t1
    have hdenF : Denotes (addAlias (addNewToken (withToken r1
        (newTokenFrom r1.token)) (nf \ dl)).1 (newTokenFrom r1.token)
        (nits ++ [newTokenFrom (newTokenFrom r1.token)]))
        (newTokenFrom r1.token) nf := by
      have hd := Denotes.expand (newTokenFrom r1.token)
        (nits ++ [newTokenFrom (newTokenFrom r1.token)])
        (fun u => (lookupTok (addAlias (addNewToken (withToken r1
          (newTokenFrom r1.token)) (nf \ dl)).1 (newTokenFrom r1.token)
          (nits ++ [newTokenFrom (newTokenFrom r1.token)])).tokenToFilter
          u).getD ∅)
        hFleaf_t0 hFalias_t0 (by simp) hrec
      have hfold : ((nits ++ [newTokenFrom (newTokenFrom r1.token)]).foldl
          (fun acc u => acc ∪ (fun u => (lookupTok (addAlias (addNewToken
            (withToken r1 (newTokenFrom r1.token)) (nf \ dl)).1
            (newTokenFrom r1.token)
            (nits ++ [newTokenFrom (newTokenFrom r1.token)])).tokenToFilter
            u).getD ∅) u) ∅) = nf := by
        rw [foldl_union_eq_unionOf, Finset.empty_union, List.map_append,
            forall2_lookup_map hfaF]
        simp only [List.map_cons, List.map_nil]
        rw [hFleaf_t1, Option.getD_some, unionOf_append, unionOf_singleton,
            hun]
        exact inter_union_sdiff_self dl nf
      rw [hfold] at hd
      exact hd
    have hinvF : CGInv (addAlias (addNewToken (withToken r1
        (newTokenFrom r1.token)) (nf \ dl)).1 (newTokenFrom r1.token)
        (nits ++ [newTokenFrom (newTokenFrom r1.token)])) := by
      refine ⟨?_, ?_, ?_, ?_, ?_, ?_, ?_, ?_, ?_⟩
      · intro kv hkv
        rw [addAlias_token]
        rw [addAlias_leaves] at hkv
        exact hinvA.leafLt kv hkv
      · intro kv hkv
        rw [addAlias_token]
        rw [addAlias_aliases] at hkv
        rcases List.mem_append.mp hkv with h | h
        · exact hinvA.aliasKeyLt kv h
        · have h' : kv = (newTokenFrom r1.token,
              nits ++ [newTokenFrom (newTokenFrom r1.token)]) :=
            List.mem_singleton.mp h
          have hk1 : kv.1 = newTokenFrom r1.token := by rw [h']
          rw [hk1, hAtoken]
          exact Nat.le_of_lt ht01
      · intro kv hkv u hu
        rw [addAlias_token]
        rw [addAlias_aliases] at hkv
        rcases List.mem_append.mp hkv with h | h
        · exact hinvA.aliasTgtLt kv h u hu
        · have h' : kv = (newTokenFrom r1.token,
              nits ++ [newTokenFrom (newTokenFrom r1.token)]) :=
            List.mem_singleton.mp h
          rw [h'] at hu
          rw [hAtoken]
          rcases List.mem_append.mp hu with h2 | h2
          · have := hnitsle u h2
            omega
          · have h3 : u = newTokenFrom (newTokenFrom r1.token) := by
              simpa using h2
            omega
      · rw [addAlias_leaves]
        exact hinvA.leafKeysNodup
      · rw [addAlias_aliases, List.map_append]
        simp only [List.map_cons, List.map_nil]
        rw [List.nodup_append]
        refine ⟨hinvA.aliasKeysNodup, by simp, ?_⟩
        intro x hx hx1
        have hx1' : x = newTokenFrom r1.token := by simpa using hx1
        rw [hAaliases] at hx
        rcases List.mem_map.mp hx with ⟨kv, hkv, hk⟩
        have := hinv1.aliasKeyLt kv hkv
        omega
      · rw [addAlias_leaves]
        exact hinvA.leafFiltersNodup
      · intro kv hkv
        rw [addAlias_leaves] at hkv
        rw [addAlias_aliases, lookupTok_append, hinvA.notBoth kv hkv,
            lookupTok_cons]
        have hne2 : ¬ newTokenFrom r1.token = kv.1 := by
          rw [hAleaves] at hkv
          rcases List.mem_append.mp hkv with h | h
          · have := hinv1.leafLt kv h
            omega
          · have h' : kv = (newTokenFrom (newTokenFrom r1.token),
                nf \ dl) := List.mem_singleton.mp h
            have hk1 : kv.1 = newTokenFrom (newTokenFrom r1.token) := by
              rw [h']
            omega
        rw [if_neg hne2]
        rfl
      · rw [addAlias_leaves]
        exact hinvA.leavesDisj
      · intro kv hkv
        rw [addAlias_aliases] at hkv
        rcases List.mem_append.mp hkv with h | h
        · obtain ⟨g, hg⟩ := hinvA.aliasDen kv h
          exact ⟨g, addAlias_denotes _ _ _ kv.1 g hg⟩
        · have h' : kv = (newTokenFrom r1.token,
              nits ++ [newTokenFrom (newTokenFrom r1.token)]) :=
            List.mem_singleton.mp h
          have hk1 : kv.1 = newTokenFrom r1.token := by rw [h']
          rw [hk1]
          exact ⟨nf, hdenF⟩
    refine ⟨hinvF, ?_, hdenF, hmonoF⟩
    rw [addAlias_leavesUnion, addNewToken_leavesUnion, withToken_leavesUnion]
    exact union_sdiff_cover hdlsub
  · have hP1 : (residualLeaf (withToken r1 (newTokenFrom r1.token)) nf dl).1
        = withToken r1 (newTokenFrom r1.token) := by
      rw [residualLeaf_neg _ _ _ hres]
    have hP2 : (residualLeaf (withToken r1 (newTokenFrom r1.token)) nf dl).2
        = [] := by
      rw [residualLeaf_neg _ _ _ hres]
    rw [hP1, hP2]
    have hnfsub : nf ⊆ dl := by
      rw [← Finset.sdiff_eq_empty_iff_subset]
      exact not_not.mp hres
    have hmonoF : ∀ t g, Denotes r1 t g →
        Denotes (addAlias (withToken r1 (newTokenFrom r1.token))
          (newTokenFrom r1.token) (nits ++ [])) t g := by
      intro t g h
      exact addAlias_denotes _ _ _ t g
        (withToken_denotes r1 (newTokenFrom r1.token) t g h)
    have hfaF : List.Forall₂
        (fun t g => lookupTok (addAlias (withToken r1
          (newTokenFrom r1.token)) (newTokenFrom r1.token)
          (nits ++ [])).tokenToFilter t = Option.some g) nits gs := by
      refine forall2_lookup_upgrade hfa ?_
      intro t ht g hg
      rw [addAlias_leaves, withToken_leaves]
      exact hg
    have hFleaf_t0 : lookupTok (addAlias (withToken r1
        (newTokenFrom r1.token)) (newTokenFrom r1.token)
        (nits ++ [])).tokenToFilter (newTokenFrom r1.token)
        = Option.none := by
      rw [addAlias_leaves, withToken_leaves]
      exact leaf_lookup_none_of_gt hinv1 ht0
    have hFalias_t0 : lookupTok (addAlias (withToken r1
        (newTokenFrom r1.token)) (newTokenFrom r1.token)
        (nits ++ [])).tokenToTokens (newTokenFrom r1.token)
        = Option.some (nits ++ []) := by
      rw [addAlias_aliases, lookupTok_append, withToken_aliases,
          alias_lookup_none_of_gt hinv1 ht0, lookupTok_cons]
      simp
    have hrec : ∀ u ∈ nits ++ [],
        Denotes (addAlias (withToken r1 (newTokenFrom r1.token))
          (newTokenFrom r1.token) (nits ++ [])) u
          ((lookupTok (addAlias (withToken r1 (newTokenFrom r1.token))
            (newTokenFrom r1.token) (nits ++ [])).tokenToFilter
            u).getD ∅) := by
      intro u hu
      rcases List.mem_append.mp hu with h | h
      · obtain ⟨g, hg⟩ := forall2_lookup_mem hfaF u h
        rw [hg]
        exact Denotes.leaf _ _ hg
      · cases h
    have hdenF : Denotes (addAlias (withToken r1 (newTokenFrom r1.token))
        (newTokenFrom r1.token) (nits ++ [])) (newTokenFrom r1.token)
        nf := by
      have hd := Denotes.expand (newTokenFrom r1.token) (nits ++ [])
        (fun u => (lookupTok (addAlias (withToken r1
          (newTokenFrom r1.token)) (newTokenFrom r1.token)
          (nits ++ [])).tokenToFilter u).getD ∅)
        hFleaf_t0 hFalias_t0 (by simpa using hnits) hrec
      have hfold : ((nits ++ []).foldl
          (fun acc u => acc ∪ (fun u => (lookupTok (addAlias (withToken r1
            (newTokenFrom r1.token)) (newTokenFrom r1.token)
            (nits ++ [])).tokenToFilter u).getD ∅) u) ∅) = nf := by
        rw [foldl_union_eq_unionOf, Finset.empty_union, List.map_append,
            forall2_lookup_map hfaF]
        simp only [List.map_nil, List.append_nil]
        rw [hun]
        exact Finset.inter_eq_right.mpr hnfsub
      rw [hfold] at hd
      exact hd
    have hinvF : CGInv (addAlias (withToken r1 (newTokenFrom r1.token))
        (newTokenFrom r1.token) (nits ++ [])) := by
      refine ⟨?_, ?_, ?_, ?_, ?_, ?_, ?_, ?_, ?_⟩
      · intro kv hkv
        rw [addAlias_token, withToken_token]
        rw [addAlias_leaves, withToken_leaves] at hkv
        have := hinv1.leafLt kv hkv
        omega
      · intro kv hkv
        rw [addAlias_token, withToken_token]
        rw [addAlias_aliases, withToken_aliases] at hkv
        rcases List.mem_append.mp hkv with h | h
        · have := hinv1.aliasKeyLt kv h
          omega
        · have h' : kv = (newTokenFrom r1.token, nits ++ []) :=
            List.mem_singleton.mp h
          have hk1 : kv.1 = newTokenFrom r1.token := by rw [h']
          omega
      · intro kv hkv u hu
        rw [addAlias_token, withToken_token]
        rw [addAlias_aliases, withToken_aliases] at hkv
        rcases List.mem_append.mp hkv with h | h
        · have := hinv1.aliasTgtLt kv h u hu
          omega
        · have h' : kv = (newTokenFrom r1.token, nits ++ []) :=
            List.mem_singleton.mp h
          rw [h'] at hu
          rcases List.mem_append.mp hu with h2 | h2
          · have := hnitsle u h2
            omega
          · cases h2
      · rw [addAlias_leaves, withToken_leaves]
        exact hinv1.leafKeysNodup
      · rw [addAlias_aliases, withToken_aliases, List.map_append]
        simp only [List.map_cons, List.map_nil]
        rw [List.nodup_append]
        refine ⟨hinv1.aliasKeysNodup, by simp, ?_⟩
        intro x hx hx1
        have hx1' : x = newTokenFrom r1.token := by simpa using hx1
        rcases List.mem_map.mp hx with ⟨kv, hkv, hk⟩
        have := hinv1.aliasKeyLt kv hkv
        omega
      · rw [addAlias_leaves, withToken_leaves]
        exact hinv1.leafFiltersNodup
      · intro kv hkv
        rw [addAlias_leaves, withToken_leaves] at hkv
        rw [addAlias_aliases, lookupTok_append, withToken_aliases,
            hinv1.notBoth kv hkv, lookupTok_cons]
        have hne2 : ¬ newTokenFrom r1.token = kv.1 := by
          have := hinv1.leafLt kv hkv
          omega
        rw [if_neg hne2]
        rfl
      · rw [addAlias_leaves, withToken_leaves]
        exact hinv1.leavesDisj
      · intro kv hkv
        rw [addAlias_aliases, withToken_aliases] at hkv
        rcases List.mem_append.mp hkv with h | h
        · obtain ⟨g, hg⟩ := hinv1.aliasDen kv h
          exact ⟨g, hmonoF kv.1 g hg⟩
        · have h' : kv = (newTokenFrom r1.token, nits ++ []) :=
            List.mem_singleton.mp h
          have hk1 : kv.1 = newTokenFrom r1.token := by rw [h']
          rw [hk1]
          exact ⟨nf, hdenF⟩
    refine ⟨hinvF, ?_, hdenF, hmonoF⟩
    rw [addAlias_leavesUnion, withToken_leavesUnion]
    exact (Finset.union_eq_left.mpr (hnfsub.trans hdlsub)).symm

theorem finishAdd_some_fst (s : CGState α) (nf dl : Finset α) :
    (finishAdd s nf (Option.some dl)).1 =
      addAlias
        (residualLeaf (withToken (splitRes s nf).1
          (newTokenFrom (splitRes s nf).1.token)) nf dl).1
        (newTokenFrom (splitRes s nf).1.token)
        ((splitRes s nf).2.2 ++
         (residualLeaf (withToken (splitRes s nf).1
           (newTokenFrom (splitRes s nf).1.token)) nf dl).2) := rfl

theorem finishAdd_some_snd (s : CGState α) (nf dl : Finset α) :
    (finishAdd s nf (Option.some dl)).2
      = newTokenFrom (splitRes s nf).1.token := rfl

theorem add_new_filter_spec {s : CGState α} (hinv : CGInv s) {nf : Finset α}
    (hnotfound : lookupFilter s.tokenToFilter nf = Option.none) :
    CGInv (add_new_filter s nf).1 ∧
    leavesUnion (add_new_filter s nf).1 = leavesUnion s ∪ nf ∧
    Denotes (add_new_filter s nf).1 (add_new_filter s nf).2 nf ∧
    (∀ t g, Denotes s t g → Denotes (add_new_filter s nf).1 t g) := by
  obtain ⟨c1, c2, c3, c4, c5, c6, c7, c8, c9⟩ :=
    splitLoop_spec nf s.tokenToFilter s Option.none [] hinv
      (fun kv h => h) hinv.leafKeysNodup
      (fun t ht => absurd ht (List.not_mem_nil t))
      ⟨[], List.Forall₂.nil, by simp [unionOf, dlSet]⟩
      (by simp [dlSet])
      (fun kv hkv hn => absurd hkv hn)
      (fun h => absurd rfl h)
  rw [show splitLoop nf s.tokenToFilter s Option.none [] = splitRes s nf
    from rfl] at c1 c2 c3 c4 c5 c6 c7 c8 c9
  cases hdl : (splitRes s nf).2.1 with
  | none =>
      obtain ⟨hr1, -⟩ := c6 hdl
      have heq : add_new_filter s nf = addNewToken (splitRes s nf).1 nf := by
        unfold add_new_filter
        rw [hdl, finishAdd_none]
      rw [heq, hr1]
      have hdisj : ∀ kv ∈ s.tokenToFilter, kv.2 ∩ nf = ∅ := by
        intro kv hkv
        have h8 := c8 kv (by rw [hr1]; exact hkv)
        rw [hdl] at h8
        exact Finset.subset_empty.mp h8
      have hnodupf : ∀ kv ∈ s.tokenToFilter, kv.2 ≠ nf :=
        lookupFilter_eq_none hnotfound
      refine ⟨addNewToken_inv hinv hdisj hnodupf,
        addNewToken_leavesUnion s nf, ?_, addNewToken_denotes hinv nf⟩
      exact Denotes.leaf _ _ (addNewToken_lookup_new hinv nf)
  | some dl =>
      have heq : add_new_filter s nf = finishAdd s nf (Option.some dl) := by
        unfold add_new_filter
        rw [hdl]
      rw [heq, finishAdd_some_fst, finishAdd_some_snd]
      obtain ⟨gs, hfa5, hun5⟩ := c5
      have hun5' : unionOf gs = dl ∩ nf := by
        rw [hdl] at hun5
        exact hun5
      have hdlsub' : dl ⊆ leavesUnion (splitRes s nf).1 := by
        have h7 := c7
        rw [hdl] at h7
        rw [c2]
        exact h7
      have hcov' : ∀ kv ∈ (splitRes s nf).1.tokenToFilter,
          kv.2 ∩ nf ⊆ dl := by
        intro kv hkv
        have h8 := c8 kv hkv
        rw [hdl] at h8
        exact h8
      have hnits' : (splitRes s nf).2.2 ≠ [] :=
        c9 (by rw [hdl]; exact Option.some_ne_none dl)
      obtain ⟨f1, f2, f3, f4⟩ :=
        finish_some_spec c1 hfa5 hun5' hdlsub' hcov' hnits'
      refine ⟨f1, ?_, f3, fun t g h => f4 t g (c4 t g h)⟩
      rw [f2, c2]

theorem get_token_spec {s : CGState α} (hinv : CGInv s) (f : Finset α) :
    CGInv (get_token s f).1 ∧
    leavesUnion (get_token s f).1 = leavesUnion s ∪ f ∧
    Denotes (get_token s f).1 (get_token s f).2 f ∧
    (∀ t g, Denotes s t g → Denotes (get_token s f).1 t g) := by
  cases hlf : lookupFilter s.tokenToFilter f with
  | some t =>
      have heq : get_token s f = (s, t) := by
        unfold get_token
        rw [hlf]
      rw [heq]
      have hmem := lookupFilter_mem hlf
      have hsub : f ⊆ leavesUnion s :=
        fun a ha => mem_leavesUnion.mpr ⟨(t, f), hmem, ha⟩
      exact ⟨hinv, (Finset.union_eq_left.mpr hsub).symm,
        Denotes.leaf _ _ (mem_lookupTok hinv.leafKeysNodup hmem),
        fun t' g h => h⟩
  | none =>
      have heq : get_token s f = add_new_filter s f := by
        unfold get_token
        rw [hlf]
      rw [heq]
      exact add_new_filter_spec hinv hlf

theorem initCG_inv : CGInv (initCG : CGState α) :=
  ⟨fun kv h => absurd h (List.not_mem_nil kv),
   fun kv h => absurd h (List.not_mem_nil kv),
   fun kv h => absurd h (List.not_mem_nil kv),
   List.nodup_nil, List.nodup_nil, List.nodup_nil,
   fun kv h => absurd h (List.not_mem_nil kv),
   List.Pairwise.nil,
   fun kv h => absurd h (List.not_mem_nil kv)⟩

theorem runGetTokens_append (fs : List (Finset α)) (f : Finset α) :
    runGetTokens (fs ++ [f]) = (get_token (runGetTokens fs) f).1 := by
  unfold runGetTokens
  rw [List.foldl_append]
  rfl

theorem runGetTokens_spec (fs : List (Finset α)) :
    CGInv (runGetTokens fs) ∧
    leavesUnion (runGetTokens fs) = unionOf fs ∧
    (∀ i, i < fs.length →
      Denotes (runGetTokens fs) (issuedToken fs i) (fs.getD i ∅)) := by
  induction fs using List.reverseRecOn with
  | nil =>
      refine ⟨initCG_inv, rfl, ?_⟩
      intro i hi
      simp at hi
  | append_singleton fs f ih =>
      obtain ⟨h1, h2, h3⟩ := ih
      obtain ⟨g1, g2, g3, g4⟩ := get_token_spec h1 f
      rw [runGetTokens_append]
      refine ⟨g1, ?_, ?_⟩
      · rw [g2, h2, unionOf_append, unionOf_singleton]
      · intro i hi
        rw [List.length_append, List.length_singleton] at hi
        by_cases hilt : i < fs.length
        · have htake : (fs ++ [f]).take i = fs.take i :=
            List.take_append_of_le_length (Nat.le_of_lt hilt)
          have hgetD : (fs ++ [f]).getD i ∅ = fs.getD i ∅ :=
            List.getD_append fs [f] ∅ i hilt
          have hit : issuedToken (fs ++ [f]) i = issuedToken fs i := by
            unfold issuedToken
            rw [htake, hgetD]
          rw [hit, hgetD]
          exact g4 _ _ (h3 i hilt)
        · have hieq : i = fs.length := by omega
          subst hieq
          have htake : (fs ++ [f]).take fs.length = fs :=
            List.take_left fs [f]
          have hgetD : (fs ++ [f]).getD fs.length ∅ = f := by
            rw [List.getD_append_right fs [f] ∅ fs.length (Nat.le_refl _)]
            simp
          have hit : issuedToken (fs ++ [f]) fs.length
              = (get_token (runGetTokens fs) f).2 := by
            unfold issuedToken
            rw [htake, hgetD]
          rw [hit, hgetD]
          exact g3

/-- C6: After any sequence of get_token calls with nonoverlapping_filters
on one token type, the filters mapped by the leaf tokens in token_to_filter
are pairwise disjoint and union to exactly the union of all filters passed
in so far; every aliased token recorded in token_to_tokens expands (by the
get_filter_from_token recursion) to a filter built from leaf tokens, and
the token issued for the i-th filter expands to exactly that filter. -/
theorem character_generator_disjointness (fs : List (Finset α)) :
    ((runGetTokens fs).tokenToFilter.Pairwise (fun a b => a.2 ∩ b.2 = ∅)) ∧
    leavesUnion (runGetTokens fs) = unionOf fs ∧
    (∀ kv ∈ (runGetTokens fs).tokenToTokens,
      ∃ g, Denotes (runGetTokens fs) kv.1 g) ∧
    (∀ i, i < fs.length →
      Denotes (runGetTokens fs) (issuedToken fs i) (fs.getD i ∅)) := by
  obtain ⟨h1, h2, h3⟩ := runGetTokens_spec fs
  exact ⟨h1.leavesDisj, h2, h1.aliasDen, h3⟩

theorem character_generator_disjointness_witness :
    1 < ([{0}, {0, 1}] : List (Finset (Fin 2))).length ∧
    Denotes (runGetTokens ([{0}, {0, 1}] : List (Finset (Fin 2))))
      (issuedToken ([{0}, {0, 1}] : List (Finset (Fin 2))) 1)
      (([{0}, {0, 1}] : List (Finset (Fin 2))).getD 1 ∅) :=
  ⟨by decide,
   (character_generator_disjointness
     ([{0}, {0, 1}] : List (Finset (Fin 2)))).2.2.2 1 (by decide)⟩

end Pyretic
